import Mathlib

/-!
# Restaurant order management: a verification development

A shallow embedding of `restaurant order  system.cpp` and theorems about it.

Modelling conventions

* `int` is `Int`.  The counts and capacities of the two arrays stay far below `2^31`
  (reaching it needs more than `2^30` live objects), so their arithmetic is not wrapped.
  The static counter `nextOrderId` is different: it grows with every construction, whether
  or not the order stays alive.  Its increment `++nextOrderId` is modelled with the 32-bit
  two's-complement wrap-around `wrapInt` (what implementations do on overflow; ISO C++
  leaves signed overflow undefined), and the theorems about identifiers state the bound on
  the number of constructions under which no increment overflows.
* `float` is a type parameter `α` carrying the operations the code uses (`0`, `+`, `*`,
  decimal literals).  Two instances are provided: `ℚ` (exact arithmetic) and `F32`
  (IEEE-754 binary32, each operation rounded separately to nearest, ties to even; no
  fused multiply-add, no excess precision; NaN payloads are not distinguished).
* A block obtained from `new T[capacity]` is a list of cells; a cell is `none` while it
  holds an indeterminate value.  `nullptr` as a block is the empty list.
* A `MenuItem*` is `none` for `nullptr` and `some i` for the address `menu + i`; the
  static array `menu` is the only storage of `MenuItem` objects in the program.
  The array is a mutable global, so the functions that read it take its contents as
  an argument; `menu` is the value given by the static initialiser.
* An `OrderBase*` held by the manager is modelled by the object it points to (the
  manager owns its orders); `delete` has no counterpart in the model.
* A function returns `none` when the C++ code has undefined behaviour (a read of an
  indeterminate cell, an access outside a block, a null dereference).
* Console output is omitted.
-/

namespace Restaurant

/-! ## Binary32 arithmetic -/

/-- A binary32 value: `fin neg m e` is `(-1)^neg * m * 2^e`, kept canonical
(`m < 2^24`, `-149 ≤ e ≤ 104`, and `2^23 ≤ m` unless `e = -149`). -/
inductive F32 where
  | fin (neg : Bool) (m : Nat) (e : Int)
  | inf (neg : Bool)
  | nan
deriving DecidableEq, Repr

namespace F32

/-- The fraction `n / (d * 2^e)` as a numerator and a denominator. -/
def scale (n d : Nat) (e : Int) : Nat × Nat :=
  if 0 ≤ e then (n, d * 2 ^ e.toNat) else (n * 2 ^ (-e).toNat, d)

/-- The integer nearest to `a / b`, ties to even. -/
def roundNearestEven (a b : Nat) : Nat :=
  let q := a / b
  let r := a % b
  if 2 * r < b then q
  else if b < 2 * r then q + 1
  else if q % 2 = 0 then q else q + 1

/-- Floor of the binary logarithm (`0` at `0`), by halving. -/
def ilog2 : Nat → Nat → Nat
  | 0, _ => 0
  | fuel + 1, n => if n < 2 then 0 else ilog2 fuel (n / 2) + 1

/-- The binary32 value nearest to `(-1)^neg * n / d` (ties to even, overflow to infinity,
gradual underflow). -/
def round (neg : Bool) (n d : Nat) : F32 :=
  if n = 0 then fin neg 0 (-149)
  else
    let e0 : Int := (ilog2 n n : Int) - (ilog2 d d : Int) - 23
    let e1 : Int := if 2 ^ 23 * (scale n d e0).2 ≤ (scale n d e0).1 then e0 else e0 - 1
    let e : Int := if e1 < -149 then -149 else e1
    let m := roundNearestEven (scale n d e).1 (scale n d e).2
    if m = 2 ^ 24 then (if 104 < e + 1 then inf neg else fin neg (2 ^ 23) (e + 1))
    else if 104 < e then inf neg
    else fin neg m e

/-- The integer `(-1)^neg * m`. -/
def signed (neg : Bool) (m : Nat) : Int := if neg then -(m : Int) else (m : Int)

/-- Binary32 addition. -/
def add : F32 → F32 → F32
  | nan, _ => nan
  | _, nan => nan
  | inf s, inf t => if s = t then inf s else nan
  | inf s, fin _ _ _ => inf s
  | fin _ _ _, inf t => inf t
  | fin s m e, fin t k f =>
    let g : Int := if e ≤ f then e else f
    let c : Int := signed s (m * 2 ^ (e - g).toNat) + signed t (k * 2 ^ (f - g).toNat)
    if c = 0 then fin (s && t) 0 (-149)
    else round (decide (c < 0)) (scale c.natAbs 1 (-g)).1 (scale c.natAbs 1 (-g)).2

/-- Binary32 multiplication. -/
def mul : F32 → F32 → F32
  | nan, _ => nan
  | _, nan => nan
  | inf s, inf t => inf (xor s t)
  | inf s, fin t k _ => if k = 0 then nan else inf (xor s t)
  | fin s m _, inf t => if m = 0 then nan else inf (xor s t)
  | fin s m e, fin t k f =>
    round (xor s t) (scale (m * k) 1 (-(e + f))).1 (scale (m * k) 1 (-(e + f))).2

instance : Zero F32 := ⟨fin false 0 (-149)⟩
instance : Add F32 := ⟨add⟩
instance : Mul F32 := ⟨mul⟩
instance : OfScientific F32 where
  ofScientific mant es de :=
    if es then round false mant (10 ^ de) else round false (mant * 10 ^ de) 1

/-- The rational value of a finite binary32 value (`0` for infinities and NaN). -/
def toRat : F32 → ℚ
  | fin s m e => (signed s m : ℚ) * (2 : ℚ) ^ e
  | _ => 0

end F32

/-! ## Blocks of cells -/

/-- The cells of an array obtained from `new T[capacity]`. -/
abbrev Block (β : Type) := List (Option β)

/-- The allocation `new T[capacity]`: every cell indeterminate. -/
def Block.alloc {β : Type} (capacity : Int) : Block β := List.replicate capacity.toNat none

/-- The read `*(b + i)`. -/
def Block.read {β : Type} (b : Block β) (i : Int) : Option β :=
  if i < 0 then none else (b[i.toNat]?).join

/-- The write `*(b + i) = v`. -/
def Block.write {β : Type} (b : Block β) (i : Int) (v : β) : Option (Block β) :=
  if 0 ≤ i ∧ i < (b.length : Int) then some (b.set i.toNat (some v)) else none

/-- The loop `for (; i < n; i++) *(dst + i) = *(src + i);` of `addItem` and `addOrder`. -/
def copyLoop {β : Type} (src : Block β) (n : Int) : Nat → Int → Block β → Option (Block β)
  | 0, i, dst => if i < n then none else some dst
  | fuel + 1, i, dst =>
    if i < n then
      (src.read i).bind fun v => (dst.write i v).bind fun dst => copyLoop src n fuel (i + 1) dst
    else some dst

/-! ## Menu -/

/-- The record `struct MenuItem`; `name` is the text held by `char name[30]`. -/
structure MenuItem (α : Type) where
  name : String
  price : α
deriving DecidableEq, Repr

/-- The contents of the array `menu[20]`. -/
abbrev Menu (α : Type) := Fin 20 → MenuItem α

/-- A `MenuItem*`: `nullptr` or the address of a slot of `menu`. -/
abbrev MenuItemPtr := Option (Fin 20)

/-- The initialiser list of `menu`; the slots it does not name are zero-initialised. -/
def menuInit (α : Type) [Zero α] [OfScientific α] : List (MenuItem α) :=
  [⟨"Burger", 12.99⟩, ⟨"Pizza", 15.50⟩, ⟨"Pasta", 11.25⟩, ⟨"Salad", 8.75⟩, ⟨"Steak", 24.99⟩,
   ⟨"Chicken Wings", 9.99⟩, ⟨"Fish & Chips", 13.50⟩, ⟨"Tacos", 7.99⟩, ⟨"Soup", 6.50⟩,
   ⟨"Sandwich", 8.99⟩, ⟨"", 0.0⟩]

/-- The static array `menu`. -/
def menu {α : Type} [Zero α] [OfScientific α] : Menu α :=
  fun i => (menuInit α).getD i.val ⟨"", 0⟩

/-- The loop of `findMenuItem`. -/
def findMenuItemLoop {α : Type} (mn : Menu α) (name : String) : Nat → Nat → MenuItemPtr
  | 0, _ => none
  | fuel + 1, i =>
    if h : i < 20 then
      if 0 < (mn ⟨i, h⟩).name.length ∧ (mn ⟨i, h⟩).name = name then some ⟨i, h⟩
      else findMenuItemLoop mn name fuel (i + 1)
    else none

/-- The method `OrderManager::findMenuItem`: the first slot, in index order, whose name is
non-empty (`strlen > 0`) and equal to `name` (`strcmp == 0`), else `nullptr`. -/
def findMenuItem {α : Type} (mn : Menu α) (name : String) : MenuItemPtr :=
  findMenuItemLoop mn name 20 0

/-! ## Orders -/

/-- The largest value of a 32-bit `int`. -/
def INT_MAX : Int := 2147483647

/-- The smallest value of a 32-bit `int`. -/
def INT_MIN : Int := -2147483648

/-- The value a 32-bit `int` holds after an arithmetic result `x`: `x` itself when it is in
range, and its two's-complement wrap-around otherwise. -/
def wrapInt (x : Int) : Int := (x + 2147483648) % 4294967296 - 2147483648

/-- The data members of `class OrderBase`. -/
structure OrderBase where
  orderId : Int
  items : Block MenuItemPtr
  nItems : Int
  capacity : Int
deriving DecidableEq, Repr

namespace OrderBase

/-- The constructor `OrderBase()`, with the static counter `nextOrderId` passed in and out:
`orderId(++nextOrderId)` increments the 32-bit counter and stores its new value. -/
def new (nextOrderId : Int) : OrderBase × Int :=
  ({ orderId := wrapInt (nextOrderId + 1), items := [], nItems := 0, capacity := 0 },
    wrapInt (nextOrderId + 1))

/-- The method `OrderBase::addItem`: reallocation with doubled capacity when the block is
full, then the write at `nItems` and the increment. -/
def addItem (o : OrderBase) (menuItem : MenuItemPtr) : Option OrderBase :=
  (if o.capacity ≤ o.nItems then
    let capacity := if o.capacity = 0 then 2 else o.capacity * 2
    (copyLoop o.items o.nItems o.nItems.toNat 0 (Block.alloc capacity)).map fun newItems =>
      { o with capacity := capacity, items := newItems }
  else some o).bind fun o =>
    (o.items.write o.nItems menuItem).map fun items =>
      { o with items := items, nItems := o.nItems + 1 }

/-- The loop of `calculateBaseTotal`. -/
def baseTotalLoop {α : Type} [Add α] (mn : Menu α) (items : Block MenuItemPtr) (nItems : Int) :
    Nat → Int → α → Option α
  | 0, i, total => if i < nItems then none else some total
  | fuel + 1, i, total =>
    if i < nItems then
      match items.read i with
      | some (some slot) => baseTotalLoop mn items nItems fuel (i + 1) (total + (mn slot).price)
      | _ => none
    else some total

/-- The method `OrderBase::calculateBaseTotal`. -/
def calculateBaseTotal {α : Type} [Zero α] [Add α] (mn : Menu α) (o : OrderBase) : Option α :=
  baseTotalLoop mn o.items o.nItems o.nItems.toNat 0 0

/-- The method `OrderBase::getOrderId`. -/
def getOrderId (o : OrderBase) : Int := o.orderId

/-- The method `OrderBase::getItemCount`. -/
def getItemCount (o : OrderBase) : Int := o.nItems

/-- The references held by the order, in list order: the cells `0 .. nItems - 1`. -/
def itemList (o : OrderBase) : List MenuItemPtr := (o.items.take o.nItems.toNat).reduceOption

/-- The representation invariant of the item array. -/
def WF (o : OrderBase) : Prop :=
  0 ≤ o.nItems ∧ o.nItems ≤ o.capacity ∧ (o.items.length : Int) = o.capacity ∧
    ∀ c ∈ o.items.take o.nItems.toNat, c.isSome = true

instance (o : OrderBase) : Decidable o.WF := by unfold WF; infer_instance

end OrderBase

/-- The data members of `class DineInOrder`. -/
structure DineInOrder (α : Type) extends OrderBase where
  serviceCharge : α
deriving DecidableEq, Repr

/-- The data members of `class PickUpOrder`. -/
structure PickUpOrder (α : Type) extends OrderBase where
  packagingFee : α
deriving DecidableEq, Repr

namespace DineInOrder

/-- The constructor `DineInOrder(float serviceRate)`. -/
def new {α : Type} (nextOrderId : Int) (serviceRate : α) : DineInOrder α × Int :=
  ({ toOrderBase := (OrderBase.new nextOrderId).1, serviceCharge := serviceRate },
    (OrderBase.new nextOrderId).2)

/-- The inherited `addItem` on a dine-in order. -/
def addItem {α : Type} (o : DineInOrder α) (menuItem : MenuItemPtr) : Option (DineInOrder α) :=
  (o.toOrderBase.addItem menuItem).map fun b => { o with toOrderBase := b }

/-- The method `DineInOrder::getTotal`. -/
def getTotal {α : Type} [Zero α] [Add α] [Mul α] (mn : Menu α) (o : DineInOrder α) : Option α :=
  (o.toOrderBase.calculateBaseTotal mn).map fun baseTotal => baseTotal + baseTotal * o.serviceCharge

/-- The method `DineInOrder::setServiceCharge`. -/
def setServiceCharge {α : Type} (o : DineInOrder α) (rate : α) : DineInOrder α :=
  { o with serviceCharge := rate }

/-- The method `DineInOrder::getServiceCharge`. -/
def getServiceCharge {α : Type} (o : DineInOrder α) : α := o.serviceCharge

end DineInOrder

namespace PickUpOrder

/-- The constructor `PickUpOrder(float fee)`. -/
def new {α : Type} (nextOrderId : Int) (fee : α) : PickUpOrder α × Int :=
  ({ toOrderBase := (OrderBase.new nextOrderId).1, packagingFee := fee },
    (OrderBase.new nextOrderId).2)

/-- The inherited `addItem` on a pickup order. -/
def addItem {α : Type} (o : PickUpOrder α) (menuItem : MenuItemPtr) : Option (PickUpOrder α) :=
  (o.toOrderBase.addItem menuItem).map fun b => { o with toOrderBase := b }

/-- The method `PickUpOrder::getTotal`. -/
def getTotal {α : Type} [Zero α] [Add α] (mn : Menu α) (o : PickUpOrder α) : Option α :=
  (o.toOrderBase.calculateBaseTotal mn).map fun baseTotal => baseTotal + o.packagingFee

/-- The method `PickUpOrder::setPackagingFee`. -/
def setPackagingFee {α : Type} (o : PickUpOrder α) (fee : α) : PickUpOrder α :=
  { o with packagingFee := fee }

/-- The method `PickUpOrder::getPackagingFee`. -/
def getPackagingFee {α : Type} (o : PickUpOrder α) : α := o.packagingFee

end PickUpOrder

/-- The object an `OrderBase*` points to: one of the two derived classes. -/
inductive Order (α : Type) where
  | dineIn (o : DineInOrder α)
  | pickUp (o : PickUpOrder α)
deriving DecidableEq, Repr

namespace Order

/-- The `OrderBase` part of an order. -/
def base {α : Type} : Order α → OrderBase
  | dineIn o => o.toOrderBase
  | pickUp o => o.toOrderBase

/-- The call `getOrderId` through an `OrderBase*`. -/
def getOrderId {α : Type} (o : Order α) : Int := o.base.getOrderId

/-- The virtual call `getTotal` through an `OrderBase*`. -/
def getTotal {α : Type} [Zero α] [Add α] [Mul α] (mn : Menu α) : Order α → Option α
  | dineIn o => o.getTotal mn
  | pickUp o => o.getTotal mn

end Order

/-! ## Order manager -/

/-- The data members of `class OrderManager`. -/
structure OrderManager (α : Type) where
  orders : Block (Order α)
  nOrders : Int
  capacity : Int
deriving DecidableEq, Repr

namespace OrderManager

/-- The constructor `OrderManager()`. -/
def new {α : Type} : OrderManager α := { orders := [], nOrders := 0, capacity := 0 }

/-- The method `OrderManager::addOrder`.  The argument is a non-null pointer: the method
dereferences it (to print the id). -/
def addOrder {α : Type} (m : OrderManager α) (order : Order α) : Option (OrderManager α) :=
  (if m.capacity ≤ m.nOrders then
    let capacity := if m.capacity = 0 then 2 else m.capacity * 2
    (copyLoop m.orders m.nOrders m.nOrders.toNat 0 (Block.alloc capacity)).map fun newOrders =>
      { m with capacity := capacity, orders := newOrders }
  else some m).bind fun m =>
    (m.orders.write m.nOrders order).map fun orders =>
      { m with orders := orders, nOrders := m.nOrders + 1 }

/-- The search loop of `removeOrder`: the value of `index` after the loop. -/
def findLoop {α : Type} (orders : Block (Order α)) (nOrders orderId : Int) :
    Nat → Int → Option Int
  | 0, i => if i < nOrders then none else some (-1)
  | fuel + 1, i =>
    if i < nOrders then
      match orders.read i with
      | some o => if o.getOrderId = orderId then some i else findLoop orders nOrders orderId fuel (i + 1)
      | none => none
    else some (-1)

/-- The compaction loop of `removeOrder`:
`for (; i < nOrders - 1; i++) *(orders + i) = *(orders + i + 1);`. -/
def shiftLoop {α : Type} (nOrders : Int) : Nat → Int → Block (Order α) → Option (Block (Order α))
  | 0, i, orders => if i < nOrders - 1 then none else some orders
  | fuel + 1, i, orders =>
    if i < nOrders - 1 then
      (orders.read (i + 1)).bind fun v =>
        (orders.write i v).bind fun orders => shiftLoop nOrders fuel (i + 1) orders
    else some orders

/-- The method `OrderManager::removeOrder`: the search for the first order carrying
`orderId`, then (when found) the read for `delete`, the compaction loop and the decrement. -/
def removeOrder {α : Type} (m : OrderManager α) (orderId : Int) :
    Option (Bool × OrderManager α) :=
  (findLoop m.orders m.nOrders orderId m.nOrders.toNat 0).bind fun index =>
    if index = -1 then some (false, m)
    else
      (m.orders.read index).bind fun _ =>
        (shiftLoop m.nOrders (m.nOrders - 1 - index).toNat index m.orders).map fun orders =>
          (true, { m with orders := orders, nOrders := m.nOrders - 1 })

/-- The method `OrderManager::getOrderCount`. -/
def getOrderCount {α : Type} (m : OrderManager α) : Int := m.nOrders

/-- The method `OrderManager::getOrder`; the inner `none` is `nullptr`. -/
def getOrder {α : Type} (m : OrderManager α) (index : Int) : Option (Option (Order α)) :=
  if 0 ≤ index ∧ index < m.nOrders then (m.orders.read index).map some
  else some none

/-- The active orders in sequence: the cells `0 .. nOrders - 1`. -/
def orderList {α : Type} (m : OrderManager α) : List (Order α) :=
  (m.orders.take m.nOrders.toNat).reduceOption

/-- The representation invariant of the order array. -/
def WF {α : Type} (m : OrderManager α) : Prop :=
  0 ≤ m.nOrders ∧ m.nOrders ≤ m.capacity ∧ (m.orders.length : Int) = m.capacity ∧
    ∀ c ∈ m.orders.take m.nOrders.toNat, c.isSome = true

instance {α : Type} (m : OrderManager α) : Decidable m.WF := by unfold WF; infer_instance

end OrderManager

/-! ## The demonstration -/

/-- The loop of `demonstrateSystem` that prints the total of every order:
`for (i = 0; i < manager.getOrderCount(); i++)` with `getOrder(i)` and `getTotal()`. -/
def totalsLoop {α : Type} [Zero α] [Add α] [Mul α] (mn : Menu α) (manager : OrderManager α) :
    Nat → Int → List (Int × α) → Option (List (Int × α))
  | 0, i, out => if i < manager.getOrderCount then none else some out
  | fuel + 1, i, out =>
    if i < manager.getOrderCount then
      match manager.getOrder i with
      | none => none
      | some none => totalsLoop mn manager fuel (i + 1) out
      | some (some order) =>
        (order.getTotal mn).bind fun t =>
          totalsLoop mn manager fuel (i + 1) (out ++ [(order.getOrderId, t)])
    else some out

/-- What a run of `demonstrateSystem` computes. -/
structure Demo (α : Type) where
  dineIn : DineInOrder α
  pickup : PickUpOrder α
  dineIn2 : DineInOrder α
  added : OrderManager α
  totals : List (Int × α)
  removed : Bool
  manager : OrderManager α
  nextOrderId : Int

/-- The function `demonstrateSystem`, from the menu contents and the value of `nextOrderId`
at entry. -/
def demonstrateSystem {α : Type} [Zero α] [Add α] [Mul α] [OfScientific α]
    (mn : Menu α) (nextOrderId : Int) : Option (Demo α) := do
  let manager : OrderManager α := OrderManager.new
  let (dineIn, nextOrderId) := DineInOrder.new nextOrderId (0.18 : α)
  let dineIn ← dineIn.addItem (findMenuItem mn "Burger")
  let dineIn ← dineIn.addItem (findMenuItem mn "Pizza")
  let dineIn ← dineIn.addItem (findMenuItem mn "Steak")
  let manager ← manager.addOrder (Order.dineIn dineIn)
  let (pickup, nextOrderId) := PickUpOrder.new nextOrderId (2.00 : α)
  let pickup ← pickup.addItem (findMenuItem mn "Pasta")
  let pickup ← pickup.addItem (findMenuItem mn "Salad")
  let manager ← manager.addOrder (Order.pickUp pickup)
  let (dineIn2, nextOrderId) := DineInOrder.new nextOrderId (0.20 : α)
  let dineIn2 ← dineIn2.addItem (findMenuItem mn "Chicken Wings")
  let dineIn2 ← dineIn2.addItem (findMenuItem mn "Tacos")
  let dineIn2 ← dineIn2.addItem (findMenuItem mn "Soup")
  let manager ← manager.addOrder (Order.dineIn dineIn2)
  let totals ← totalsLoop mn manager manager.getOrderCount.toNat 0 []
  let (removed, manager') ← manager.removeOrder 2
  pure { dineIn := dineIn, pickup := pickup, dineIn2 := dineIn2, added := manager,
         totals := totals, removed := removed, manager := manager', nextOrderId := nextOrderId }

/-- The value of the static member `OrderBase::nextOrderId` at program start. -/
def nextOrderId : Int := 0

/-- The manager of `demonstrateSystem` after its three `addOrder` calls, in binary32
arithmetic (an empty manager if the run were undefined). -/
def demoManager : OrderManager F32 :=
  ((demonstrateSystem (menu : Menu F32) nextOrderId).map fun d => d.added).getD OrderManager.new

/-- The dine-in order of `demonstrateSystem` (Burger, Pizza, Steak at 18%), in binary32
arithmetic. -/
def demoDineIn : DineInOrder F32 :=
  ((demonstrateSystem (menu : Menu F32) nextOrderId).map fun d => d.dineIn).getD
    (DineInOrder.new 0 0.18).1

/-- The pickup order of `demonstrateSystem` (Pasta, Salad, fee 2.00), in binary32
arithmetic. -/
def demoPickup : PickUpOrder F32 :=
  ((demonstrateSystem (menu : Menu F32) nextOrderId).map fun d => d.pickup).getD
    (PickUpOrder.new 0 2.00).1

/-- An empty pickup order carrying `orderId` (an id in the range of `int`), as
`PickUpOrder()` builds it when the counter stands at `orderId - 1`. -/
def sampleOrder (orderId : Int) : Order F32 :=
  Order.pickUp (PickUpOrder.new (orderId - 1) 1.50).1

/-- A manager holding three empty pickup orders with ids 1, 2, 3 in a block of four cells. -/
def sampleManager : OrderManager F32 :=
  { orders := [some (sampleOrder 1), some (sampleOrder 2), some (sampleOrder 3), none],
    nOrders := 3, capacity := 4 }

/-- An amount rounded to two decimals, expressed in cents (a half rounds up). -/
def roundCents (q : ℚ) : Int := ⌊q * 100 + 1 / 2⌋

/-! ## Sequences of calls -/

/-- A call made on an `OrderManager`. -/
inductive Call (α : Type) where
  | add (order : Order α)
  | remove (orderId : Int)
deriving DecidableEq, Repr

/-- The orders passed to `addOrder` by a sequence of calls, in call order. -/
def Call.added {α : Type} : List (Call α) → List (Order α)
  | [] => []
  | Call.add o :: cs => o :: Call.added cs
  | Call.remove _ :: cs => Call.added cs

/-- Runs a sequence of calls; returns the final manager and the ids whose `removeOrder`
call returned `true`, in call order. -/
def runCalls {α : Type} (m : OrderManager α) : List (Call α) → Option (OrderManager α × List Int)
  | [] => some (m, [])
  | Call.add o :: cs => (m.addOrder o).bind fun m1 => runCalls m1 cs
  | Call.remove orderId :: cs =>
    (m.removeOrder orderId).bind fun r =>
      (runCalls r.2 cs).map fun out => (out.1, if r.1 then orderId :: out.2 else out.2)

/-- The orders obtained by calling `getOrder` on `0 .. getOrderCount() - 1`. -/
def OrderManager.readAll {α : Type} (m : OrderManager α) : List (Option (Option (Order α))) :=
  (List.range m.getOrderCount.toNat).map fun (i : Nat) => m.getOrder (i : Int)

/-! ## Further operations -/

/-- Binary32 negation (the unary minus of C++). -/
def F32.neg : F32 → F32
  | F32.fin s m e => F32.fin (!s) m e
  | F32.inf s => F32.inf (!s)
  | F32.nan => F32.nan

instance : Neg F32 := ⟨F32.neg⟩

/-- Whether a binary32 value compares less than zero (`x < 0.0f`). -/
def F32.isNegative : F32 → Bool
  | F32.fin s m _ => s && decide (m ≠ 0)
  | F32.inf s => s
  | F32.nan => false

/-- Whether a binary32 value is finite (neither an infinity nor NaN). -/
def F32.isFinite : F32 → Bool
  | F32.fin _ _ _ => true
  | _ => false

/-- The canonical representations: those `round` produces. -/
def F32.Canonical : F32 → Prop
  | F32.fin _ m e => m < 2 ^ 24 ∧ -149 ≤ e ∧ e ≤ 104 ∧ (e = -149 ∨ 2 ^ 23 ≤ m)
  | _ => True

instance (x : F32) : Decidable x.Canonical := by
  cases x <;> unfold F32.Canonical <;> infer_instance

/-- The constructor call `DineInOrder()`, with the default argument `0.15f`. -/
def DineInOrder.newDefault {α : Type} [OfScientific α] (nextOrderId : Int) : DineInOrder α × Int :=
  DineInOrder.new nextOrderId (0.15 : α)

/-- The constructor call `PickUpOrder()`, with the default argument `1.50f`. -/
def PickUpOrder.newDefault {α : Type} [OfScientific α] (nextOrderId : Int) : PickUpOrder α × Int :=
  PickUpOrder.new nextOrderId (1.50 : α)

/-- Successive `addItem` calls with the given references, in list order. -/
def OrderBase.addItems (o : OrderBase) : List MenuItemPtr → Option OrderBase
  | [] => some o
  | r :: rs => (o.addItem r).bind fun o1 => OrderBase.addItems o1 rs

/-- The sum a sequence of references denotes: the prices accumulated from `total` in list
order, undefined as soon as a reference is `nullptr`. -/
def sumPrices {α : Type} [Add α] (mn : Menu α) : α → List MenuItemPtr → Option α
  | total, [] => some total
  | total, some slot :: rs => sumPrices mn (total + (mn slot).price) rs
  | _, none :: _ => none

/-- A step of a client program: the construction of an order or a call on the manager. -/
inductive Op (α : Type) where
  | newDineIn (serviceRate : α)
  | newPickUp (fee : α)
  | addOrder (k : Nat)
  | removeOrder (orderId : Int)
deriving DecidableEq, Repr

/-- Whether the step runs a constructor. -/
def Op.isConstruction {α : Type} : Op α → Bool
  | Op.newDineIn _ => true
  | Op.newPickUp _ => true
  | _ => false

/-- The state of a client program: the static counter `OrderBase::nextOrderId`, the orders
constructed so far in order of construction, and the manager. -/
structure World (α : Type) where
  nextOrderId : Int
  created : List (Order α)
  manager : OrderManager α
deriving DecidableEq, Repr

/-- The state at program start. -/
def World.init {α : Type} : World α :=
  { nextOrderId := Restaurant.nextOrderId, created := [], manager := OrderManager.new }

/-- One step.  `addOrder k` passes the `k`-th order constructed so far to
`OrderManager::addOrder` (no call when there is none); only the constructors are given the
counter, as in the source. -/
def World.step {α : Type} (w : World α) : Op α → Option (World α)
  | Op.newDineIn serviceRate =>
    some { w with
      nextOrderId := (DineInOrder.new w.nextOrderId serviceRate).2,
      created := w.created ++ [Order.dineIn (DineInOrder.new w.nextOrderId serviceRate).1] }
  | Op.newPickUp fee =>
    some { w with
      nextOrderId := (PickUpOrder.new w.nextOrderId fee).2,
      created := w.created ++ [Order.pickUp (PickUpOrder.new w.nextOrderId fee).1] }
  | Op.addOrder k =>
    match w.created[k]? with
    | none => some w
    | some order => (w.manager.addOrder order).map fun m => { w with manager := m }
  | Op.removeOrder orderId =>
    (w.manager.removeOrder orderId).map fun r => { w with manager := r.2 }

/-- A sequence of steps. -/
def World.run {α : Type} (w : World α) : List (Op α) → Option (World α)
  | [] => some w
  | op :: ops => (w.step op).bind fun w1 => World.run w1 ops

/-- An order (id 1) whose block of two cells is full: it refers to slot 0 twice. -/
def sampleItems : OrderBase :=
  { orderId := 1, items := [some (some 0), some (some 0)], nItems := 2, capacity := 2 }

/-- A pickup order (fee 2.00, exact arithmetic) over `sampleItems`. -/
def samplePickUp : PickUpOrder ℚ := { toOrderBase := sampleItems, packagingFee := 2.00 }


/-! ## Blocks: reads, writes and the copy loop -/

theorem Block.read_at {β : Type} (A : Block β) (c : Option β) (rest : Block β) (i : Int)
    (hi : i = (A.length : Int)) : Block.read (A ++ c :: rest) i = c := by
  subst hi
  unfold Block.read
  rw [if_neg (by omega), Int.toNat_ofNat, List.getElem?_append_right (le_refl _)]
  simp

theorem Block.write_at {β : Type} (A : Block β) (c : Option β) (rest : Block β) (i : Int) (v : β)
    (hi : i = (A.length : Int)) :
    Block.write (A ++ c :: rest) i v = some (A ++ some v :: rest) := by
  subst hi
  simp [Block.write]

theorem copyLoop_spec {β : Type} (suf : List β) :
    ∀ (pre : List β) (rest drest : Block β) (n i : Int),
      n = ((pre.length + suf.length : Nat) : Int) → i = (pre.length : Int) →
      suf.length ≤ drest.length →
      copyLoop ((pre ++ suf).map some ++ rest) n suf.length i (pre.map some ++ drest)
        = some ((pre ++ suf).map some ++ drest.drop suf.length) := by
  induction suf with
  | nil =>
    intro pre rest drest n i hn hi _
    have : ¬ i < n := by simp at hn; omega
    simp [copyLoop, this]
  | cons x suf ih =>
    intro pre rest drest n i hn hi hlen
    have hlt : i < n := by simp at hn; omega
    cases drest with
    | nil => simp at hlen
    | cons d drest =>
      have hr : Block.read ((pre ++ x :: suf).map some ++ rest) i = some x := by
        have := Block.read_at (pre.map some) (some x) (suf.map some ++ rest) i (by simpa using hi)
        simpa using this
      have hw : Block.write (pre.map some ++ d :: drest) i x
          = some ((pre ++ [x]).map some ++ drest) := by
        have := Block.write_at (pre.map some) d drest i x (by simpa using hi)
        simpa using this
      have := ih (pre ++ [x]) rest drest n (i + 1) (by simp at hn ⊢; omega) (by simp; omega)
        (by simpa using hlen)
      simp only [List.append_assoc, List.singleton_append] at this
      simp only [List.length_cons, copyLoop, hlt, if_true, hr, hw, Option.some_bind]
      simpa using this

theorem reduceOption_map_some {β : Type} (xs : List β) : (xs.map some).reduceOption = xs := by
  induction xs with
  | nil => rfl
  | cons x xs ih => simp [List.reduceOption_cons_of_some, ih]

/-- A block whose first `n` cells are initialised splits into those cells and the rest. -/
theorem Block.split_active {β : Type} (b : Block β) (n : Nat)
    (hn : n ≤ b.length) (h : ∀ c ∈ b.take n, c.isSome = true) :
    b = (b.take n).reduceOption.map some ++ b.drop n ∧ (b.take n).reduceOption.length = n := by
  induction b generalizing n with
  | nil => simp at hn; subst hn; simp
  | cons c b ih =>
    cases n with
    | zero => simp
    | succ n =>
      simp only [List.length_cons, Nat.add_le_add_iff_right] at hn
      simp only [List.take_succ_cons, List.mem_cons, forall_eq_or_imp] at h
      obtain ⟨hc, h⟩ := h
      obtain ⟨v, rfl⟩ := Option.isSome_iff_exists.mp hc
      have := ih n hn h
      constructor
      · simp only [List.take_succ_cons, List.reduceOption_cons_of_some, List.map_cons,
          List.drop_succ_cons, List.cons_append]
        congr 1
        exact this.1
      · simp [List.reduceOption_cons_of_some, this.2]

namespace OrderManager

/-- A well-formed manager is its order sequence followed by the cells beyond `nOrders`. -/
theorem WF.split {α : Type} {m : OrderManager α} (h : m.WF) :
    ∃ rest : Block (Order α), m.orders = m.orderList.map some ++ rest ∧
      m.nOrders = (m.orderList.length : Int) ∧
      m.capacity = ((m.orderList.length + rest.length : Nat) : Int) := by
  obtain ⟨h0, hle, hlen, hall⟩ := h
  have hn : m.nOrders.toNat ≤ m.orders.length := by omega
  obtain ⟨h1, h2⟩ := Block.split_active m.orders m.nOrders.toNat hn hall
  refine ⟨m.orders.drop m.nOrders.toNat, h1, ?_, ?_⟩
  · unfold orderList; rw [h2]; omega
  · unfold orderList; rw [h2]; simp; omega

/-- A manager laid out as a sequence of orders followed by spare cells is well formed. -/
theorem wf_of_split {α : Type} (xs : List (Order α)) (rest : Block (Order α)) (n cap : Int)
    (hn : n = (xs.length : Int)) (hcap : cap = ((xs.length + rest.length : Nat) : Int)) :
    (OrderManager.mk (xs.map some ++ rest) n cap).WF ∧
    (OrderManager.mk (xs.map some ++ rest) n cap).orderList = xs := by
  subst hn hcap
  constructor
  · refine ⟨by simp, by simp, by simp, ?_⟩
    intro c hc
    simp only [Int.toNat_ofNat] at hc
    rw [List.take_left' (by simp)] at hc
    obtain ⟨x, _, rfl⟩ := List.mem_map.mp hc
    rfl
  · simp only [orderList, Int.toNat_ofNat]
    rw [List.take_left' (by simp)]
    exact reduceOption_map_some xs

/-- The first element with a property splits a list around itself. -/
theorem split_first {β : Type} (p : β → Prop) (xs : List β) (h : ∃ o ∈ xs, p o) :
    ∃ pre x suf, xs = pre ++ x :: suf ∧ p x ∧ ∀ y ∈ pre, ¬ p y := by
  induction xs with
  | nil => simp at h
  | cons a xs ih =>
    by_cases ha : p a
    · exact ⟨[], a, xs, rfl, ha, by simp⟩
    · obtain ⟨o, ho, hpo⟩ := h
      rcases List.mem_cons.mp ho with rfl | ho
      · exact absurd hpo ha
      · obtain ⟨pre, x, suf, rfl, hx, hpre⟩ := ih ⟨o, ho, hpo⟩
        refine ⟨a :: pre, x, suf, rfl, hx, ?_⟩
        intro y hy
        rcases List.mem_cons.mp hy with rfl | hy
        · exact ha
        · exact hpre y hy

/-! ### The loops of `removeOrder` -/

theorem findLoop_none {α : Type} (orderId : Int) (suf : List (Order α)) :
    ∀ (pre : List (Order α)) (rest : Block (Order α)) (n i : Int) (fuel : Nat),
      n = ((pre.length + suf.length : Nat) : Int) → i = (pre.length : Int) →
      fuel = suf.length → (∀ y ∈ suf, y.getOrderId ≠ orderId) →
      findLoop ((pre ++ suf).map some ++ rest) n orderId fuel i = some (-1) := by
  induction suf with
  | nil =>
    intro pre rest n i fuel hn hi hf _
    have : ¬ i < n := by simp at hn; omega
    subst hf
    simp [findLoop, this]
  | cons x suf ih =>
    intro pre rest n i fuel hn hi hf hne
    have hlt : i < n := by simp at hn; omega
    subst hf
    have hr : Block.read ((pre ++ x :: suf).map some ++ rest) i = some x := by
      have := Block.read_at (pre.map some) (some x) (suf.map some ++ rest) i (by simpa using hi)
      simpa using this
    have hx : ¬ x.getOrderId = orderId := hne x (List.mem_cons_self _ _)
    have := ih (pre ++ [x]) rest n (i + 1) suf.length (by simp at hn ⊢; omega) (by simp; omega) rfl
      (fun y hy => hne y (List.mem_cons_of_mem _ hy))
    simp only [List.append_assoc, List.singleton_append] at this
    simp only [List.length_cons, findLoop, hlt, if_true, hr, hx, if_false]
    exact this

theorem findLoop_found {α : Type} (orderId : Int) (x : Order α) (s2 : List (Order α))
    (hx : x.getOrderId = orderId) (s1 : List (Order α)) :
    ∀ (pre : List (Order α)) (rest : Block (Order α)) (n i : Int) (fuel : Nat),
      n = ((pre.length + (s1.length + 1 + s2.length) : Nat) : Int) → i = (pre.length : Int) →
      fuel = s1.length + 1 + s2.length → (∀ y ∈ s1, y.getOrderId ≠ orderId) →
      findLoop ((pre ++ (s1 ++ x :: s2)).map some ++ rest) n orderId fuel i
        = some ((pre.length + s1.length : Nat) : Int) := by
  induction s1 with
  | nil =>
    intro pre rest n i fuel hn hi hf _
    have hlt : i < n := by simp at hn; omega
    have hf2 : fuel = s2.length + 1 := by simp at hf; omega
    subst hf2
    have hr : Block.read ((pre ++ x :: s2).map some ++ rest) i = some x := by
      have := Block.read_at (pre.map some) (some x) (s2.map some ++ rest) i (by simpa using hi)
      simpa using this
    simp only [List.nil_append, findLoop, hlt, if_true, hr, hx]
    simp [hi]
  | cons y s1 ih =>
    intro pre rest n i fuel hn hi hf hne
    have hlt : i < n := by simp at hn; omega
    have hf2 : fuel = (s1.length + 1 + s2.length) + 1 := by simp at hf; omega
    subst hf2
    have hr : Block.read ((pre ++ (y :: s1 ++ x :: s2)).map some ++ rest) i = some y := by
      have := Block.read_at (pre.map some) (some y) ((s1 ++ x :: s2).map some ++ rest) i
        (by simpa using hi)
      simpa using this
    have hy : ¬ y.getOrderId = orderId := hne y (List.mem_cons_self _ _)
    have := ih (pre ++ [y]) rest n (i + 1) _ (by simp at hn ⊢; omega) (by simp; omega) rfl
      (fun z hz => hne z (List.mem_cons_of_mem _ hz))
    simp only [List.append_assoc, List.singleton_append] at this
    simp only [findLoop, hlt, if_true, hr, hy, if_false]
    rw [List.cons_append, this]
    simp; omega

theorem shiftLoop_spec {α : Type} (suf : List (Order α)) :
    ∀ (pre : List (Order α)) (x : Order α) (rest : Block (Order α)) (n i : Int) (fuel : Nat),
      n = ((pre.length + 1 + suf.length : Nat) : Int) → i = (pre.length : Int) →
      fuel = suf.length →
      ∃ z, shiftLoop n fuel i (pre.map some ++ some x :: (suf.map some ++ rest))
        = some ((pre ++ suf).map some ++ some z :: rest) := by
  induction suf with
  | nil =>
    intro pre x rest n i fuel hn hi hf
    have : ¬ i < n - 1 := by simp at hn; omega
    subst hf
    exact ⟨x, by simp [shiftLoop, this]⟩
  | cons y suf ih =>
    intro pre x rest n i fuel hn hi hf
    have hlt : i < n - 1 := by simp at hn; omega
    subst hf
    have hr : Block.read (pre.map some ++ some x :: ((y :: suf).map some ++ rest)) (i + 1)
        = some y := by
      have := Block.read_at (pre.map some ++ [some x]) (some y) (suf.map some ++ rest) (i + 1)
        (by simp; omega)
      simpa using this
    have hw : Block.write (pre.map some ++ some x :: ((y :: suf).map some ++ rest)) i y
        = some ((pre ++ [y]).map some ++ some y :: (suf.map some ++ rest)) := by
      have := Block.write_at (pre.map some) (some x) ((y :: suf).map some ++ rest) i y
        (by simpa using hi)
      simpa using this
    obtain ⟨z, hz⟩ := ih (pre ++ [y]) y rest n (i + 1) suf.length (by simp at hn ⊢; omega)
      (by simp; omega) rfl
    refine ⟨z, ?_⟩
    simp only [List.length_cons, shiftLoop, hlt, if_true, hr, hw, Option.some_bind]
    simpa using hz

/-- On a manager laid out as `pre ++ x :: suf`, where `x` is the first order carrying
`orderId`, `removeOrder` succeeds and leaves `pre ++ suf`. -/
theorem removeOrder_found {α : Type} (orderId : Int) (pre : List (Order α)) (x : Order α)
    (suf : List (Order α)) (rest : Block (Order α)) (cap : Int)
    (hpre : ∀ y ∈ pre, y.getOrderId ≠ orderId) (hx : x.getOrderId = orderId) :
    ∃ z, removeOrder ⟨(pre ++ x :: suf).map some ++ rest, ((pre ++ x :: suf).length : Nat), cap⟩
        orderId
      = some (true, ⟨(pre ++ suf).map some ++ some z :: rest, ((pre ++ suf).length : Nat), cap⟩) := by
  have hfind := findLoop_found orderId x suf hx pre [] rest
    (((pre ++ x :: suf).length : Nat) : Int) 0 ((pre ++ x :: suf).length)
    (by simp; omega) (by simp) (by simp; omega) hpre
  simp only [List.nil_append, List.length_nil, Nat.zero_add] at hfind
  obtain ⟨z, hz⟩ := shiftLoop_spec suf pre x rest (((pre ++ x :: suf).length : Nat) : Int)
    (pre.length : Int) suf.length (by simp; omega) rfl rfl
  have hr : Block.read ((pre ++ x :: suf).map some ++ rest) (pre.length : Int) = some x := by
    have := Block.read_at (pre.map some) (some x) (suf.map some ++ rest) (pre.length : Int)
      (by simp)
    simpa using this
  have hne : ¬ ((pre.length : Nat) : Int) = -1 := by omega
  have hfuel : (((pre ++ x :: suf).length : Nat) - 1 - (pre.length : Int)).toNat = suf.length := by
    simp; omega
  have hblock : (pre ++ x :: suf).map some ++ rest
      = pre.map some ++ some x :: (suf.map some ++ rest) := by simp
  refine ⟨z, ?_⟩
  unfold removeOrder
  simp only [Int.toNat_ofNat, hfind, Option.some_bind, hne, if_false, hr, hfuel]
  rw [hblock, hz]
  simp
  omega

/-- On a manager none of whose orders carries `orderId`, `removeOrder` fails and changes
nothing. -/
theorem removeOrder_not_found {α : Type} (orderId : Int) (xs : List (Order α))
    (rest : Block (Order α)) (cap : Int) (h : ∀ y ∈ xs, y.getOrderId ≠ orderId) :
    removeOrder ⟨xs.map some ++ rest, (xs.length : Nat), cap⟩ orderId
      = some (false, ⟨xs.map some ++ rest, (xs.length : Nat), cap⟩) := by
  have hfind := findLoop_none orderId xs [] rest (xs.length : Int) 0 xs.length
    (by simp) (by simp) rfl h
  simp only [List.nil_append] at hfind
  unfold removeOrder
  simp [hfind]

/-! ### Removal on well-formed managers -/

theorem removeOrder_at {α : Type} (m : OrderManager α) (orderId : Int)
    (pre : List (Order α)) (x : Order α) (suf : List (Order α))
    (hwf : m.WF) (hxs : m.orderList = pre ++ x :: suf) (hx : x.getOrderId = orderId)
    (hpre : ∀ y ∈ pre, y.getOrderId ≠ orderId) :
    ∃ m' : OrderManager α,
      m.removeOrder orderId = some (true, m') ∧ m'.orderList = pre ++ suf ∧
      m'.getOrderCount = m.getOrderCount - 1 ∧ m'.capacity = m.capacity ∧ m'.WF := by
  obtain ⟨rest, hord, hn, hcap⟩ := hwf.split
  obtain ⟨orders, n, cap⟩ := m
  simp only at hord hn hcap
  rw [hxs] at hord hn hcap
  subst hord hn
  obtain ⟨z, hz⟩ := removeOrder_found orderId pre x suf rest cap hpre hx
  have hwf' := wf_of_split (pre ++ suf) (some z :: rest) (((pre ++ suf).length : Nat) : Int) cap
    rfl (by rw [hcap]; simp; omega)
  refine ⟨_, hz, hwf'.2, ?_, rfl, hwf'.1⟩
  simp [getOrderCount]
  omega

theorem removeOrder_of_mem {α : Type} (m : OrderManager α) (orderId : Int)
    (hwf : m.WF) (hocc : ∃ o ∈ m.orderList, o.getOrderId = orderId) :
    ∃ (m' : OrderManager α) (pre : List (Order α)) (x : Order α) (suf : List (Order α)),
      m.removeOrder orderId = some (true, m') ∧
      m.orderList = pre ++ x :: suf ∧ x.getOrderId = orderId ∧
      (∀ y ∈ pre, y.getOrderId ≠ orderId) ∧
      m'.orderList = pre ++ suf ∧
      m'.getOrderCount = m.getOrderCount - 1 ∧ m'.capacity = m.capacity ∧ m'.WF := by
  obtain ⟨pre, x, suf, hxs, hx, hpre⟩ := split_first (fun o => o.getOrderId = orderId) _ hocc
  obtain ⟨m', h1, h2, h3, h4, h5⟩ := removeOrder_at m orderId pre x suf hwf hxs hx hpre
  exact ⟨m', pre, x, suf, h1, hxs, hx, hpre, h2, h3, h4, h5⟩

theorem removeOrder_of_not_mem {α : Type} (m : OrderManager α) (orderId : Int)
    (hwf : m.WF) (habs : ∀ o ∈ m.orderList, o.getOrderId ≠ orderId) :
    m.removeOrder orderId = some (false, m) := by
  obtain ⟨rest, hord, hn, _⟩ := hwf.split
  obtain ⟨orders, n, cap⟩ := m
  simp only at hord hn
  have := removeOrder_not_found orderId (orderList ⟨orders, n, cap⟩) rest cap habs
  rw [← hord, ← hn] at this
  exact this

/-! ### Positional access -/

theorem read_active {β : Type} (xs : List β) (rest : Block β) (i : Int) (k : Nat)
    (hi : i = (k : Int)) (hk : k < xs.length) :
    Block.read (xs.map some ++ rest) i = xs[k]? := by
  subst hi
  unfold Block.read
  rw [if_neg (by omega), Int.toNat_ofNat, List.getElem?_append_left (by simpa using hk)]
  simp [List.getElem?_eq_getElem hk]

theorem getOrder_eq {α : Type} (m : OrderManager α) (index : Int) (hwf : m.WF) :
    m.getOrder index
      = some (if 0 ≤ index ∧ index < m.getOrderCount then m.orderList[index.toNat]? else none) := by
  obtain ⟨rest, hord, hn, _⟩ := hwf.split
  unfold getOrder getOrderCount
  by_cases h : 0 ≤ index ∧ index < m.nOrders
  · have hk : index.toNat < m.orderList.length := by omega
    rw [if_pos h, if_pos h, hord, read_active m.orderList rest index index.toNat (by omega) hk]
    rw [List.getElem?_eq_getElem hk]
    rfl
  · rw [if_neg h, if_neg h]

/-! ### Insertion -/

theorem addOrder_split {α : Type} (xs : List (Order α)) (rest : Block (Order α)) (o : Order α) :
    ∃ rest' : Block (Order α),
      addOrder ⟨xs.map some ++ rest, (xs.length : Nat), ((xs.length + rest.length : Nat) : Int)⟩ o
        = some ⟨(xs ++ [o]).map some ++ rest', ((xs ++ [o]).length : Nat),
            (((xs ++ [o]).length + rest'.length : Nat) : Int)⟩ := by
  cases rest with
  | nil =>
    obtain ⟨K, hK⟩ : ∃ K : Nat,
        (if ((xs.length + 0 : Nat) : Int) = 0 then (2 : Int) else ((xs.length + 0 : Nat) : Int) * 2)
          = ((xs.length + (K + 1) : Nat) : Int) := by
      by_cases h0 : ((xs.length + 0 : Nat) : Int) = 0
      · exact ⟨1, by rw [if_pos h0]; omega⟩
      · exact ⟨xs.length - 1, by rw [if_neg h0]; omega⟩
    have hcopy := copyLoop_spec xs [] [] (List.replicate (xs.length + (K + 1)) none)
      (xs.length : Int) 0 (by simp) (by simp) (by simp)
    simp only [List.nil_append, List.map_nil, List.append_nil, List.drop_replicate,
      Nat.add_sub_cancel_left, List.replicate_succ] at hcopy
    have hw := Block.write_at (xs.map some) none (List.replicate K none) (xs.length : Int) o
      (by simp)
    refine ⟨List.replicate K none, ?_⟩
    unfold addOrder
    simp only [List.length_nil, List.append_nil, Block.alloc, hK, Int.toNat_ofNat]
    rw [if_pos (by omega), hcopy]
    simp only [Option.map_some', Option.some_bind, hw]
    simp
    omega
  | cons c rest =>
    refine ⟨rest, ?_⟩
    have hw := Block.write_at (xs.map some) c rest (xs.length : Int) o (by simp)
    have hlt : ¬ ((xs.length + (c :: rest).length : Nat) : Int) ≤ (xs.length : Int) := by
      rw [List.length_cons]; omega
    unfold addOrder
    simp only [hlt, if_false, Option.some_bind, hw, Option.map_some']
    simp
    omega

theorem wf_new {α : Type} : (OrderManager.new : OrderManager α).WF ∧
    (OrderManager.new : OrderManager α).orderList = [] :=
  wf_of_split [] [] 0 0 rfl rfl

theorem addOrder_of_wf {α : Type} (m : OrderManager α) (o : Order α) (hwf : m.WF) :
    ∃ m' : OrderManager α, m.addOrder o = some m' ∧ m'.WF ∧
      m'.orderList = m.orderList ++ [o] ∧ m'.getOrderCount = m.getOrderCount + 1 := by
  obtain ⟨rest, hord, hn, hcap⟩ := hwf.split
  obtain ⟨rest', h⟩ := addOrder_split m.orderList rest o
  obtain ⟨orders, n, cap⟩ := m
  simp only at hord hn hcap
  rw [← hord, ← hn, ← hcap] at h
  have hwf' := wf_of_split (orderList ⟨orders, n, cap⟩ ++ [o]) rest' _ _ rfl rfl
  refine ⟨_, h, hwf'.1, hwf'.2, ?_⟩
  simp only [getOrderCount, List.length_append, List.length_singleton]
  omega

theorem readAll_eq {α : Type} (m : OrderManager α) (hwf : m.WF) :
    m.readAll = m.orderList.map fun o => some (some o) := by
  obtain ⟨_, _, hn, _⟩ := hwf.split
  apply List.ext_getElem?
  intro i
  unfold readAll
  rw [List.getElem?_map, List.getElem?_map]
  by_cases hi : i < m.orderList.length
  · have hr : (List.range m.getOrderCount.toNat)[i]? = some i := by
      rw [List.getElem?_range]
      unfold getOrderCount
      omega
    rw [hr, List.getElem?_eq_getElem hi, Option.map_some', Option.map_some', getOrder_eq m _ hwf,
      if_pos (by unfold getOrderCount; omega), Int.toNat_ofNat, List.getElem?_eq_getElem hi]
  · have hr : (List.range m.getOrderCount.toNat)[i]? = none := by
      rw [List.getElem?_eq_none]
      simp only [List.length_range, getOrderCount]
      omega
    rw [hr, List.getElem?_eq_none (by omega)]
    rfl

end OrderManager

/-! ### Sequences of calls -/

theorem filter_drop_removed {α : Type} (orderId : Int) (removed : List Int)
    (pre : List (Order α)) (x : Order α) (tl : List (Order α))
    (hx : x.getOrderId = orderId) (hne : ∀ y ∈ pre ++ tl, y.getOrderId ≠ orderId) :
    (pre ++ x :: tl).filter (fun o => decide (o.getOrderId ∉ orderId :: removed))
      = (pre ++ tl).filter (fun o => decide (o.getOrderId ∉ removed)) := by
  rw [List.filter_append, List.filter_cons_of_neg (by simp [hx]), ← List.filter_append]
  apply List.filter_congr
  intro y hy
  have := hne y hy
  simp [this]

theorem runCalls_spec {α : Type} (cs : List (Call α)) :
    ∀ m : OrderManager α, m.WF →
      ((m.orderList ++ Call.added cs).map Order.getOrderId).Nodup →
      ∃ (m' : OrderManager α) (removed : List Int),
        runCalls m cs = some (m', removed) ∧ m'.WF ∧
        m'.orderList
          = (m.orderList ++ Call.added cs).filter (fun o => decide (o.getOrderId ∉ removed)) ∧
        m'.getOrderCount
          = m.getOrderCount + ((Call.added cs).length : Int) - (removed.length : Int) := by
  induction cs with
  | nil =>
    intro m hwf _
    exact ⟨m, [], rfl, hwf, by simp [Call.added], by simp [Call.added]⟩
  | cons c cs ih =>
    intro m hwf hnd
    cases c with
    | add o =>
      obtain ⟨m1, h1, hwf1, hl1, hc1⟩ := OrderManager.addOrder_of_wf m o hwf
      have hnd1 : ((m1.orderList ++ Call.added cs).map Order.getOrderId).Nodup := by
        rw [hl1]; simpa [Call.added] using hnd
      obtain ⟨m', removed, hr, hwf', hl', hc'⟩ := ih m1 hwf1 hnd1
      refine ⟨m', removed, ?_, hwf', ?_, ?_⟩
      · simp [runCalls, h1, hr]
      · rw [hl', hl1]; simp [Call.added]
      · rw [hc', hc1]; simp [Call.added]; omega
    | remove orderId =>
      by_cases hocc : ∃ o ∈ m.orderList, o.getOrderId = orderId
      · obtain ⟨m1, pre, x, suf, h1, hxs, hx, _, hl1, hc1, _, hwf1⟩ :=
          OrderManager.removeOrder_of_mem m orderId hwf hocc
        have hmid : ((pre ++ x :: (suf ++ Call.added cs)).map Order.getOrderId).Nodup := by
          simpa [Call.added, hxs] using hnd
        rw [List.map_append, List.map_cons, List.nodup_middle, List.nodup_cons,
          ← List.map_append] at hmid
        have hne : ∀ y ∈ pre ++ (suf ++ Call.added cs), y.getOrderId ≠ orderId := by
          intro y hy hyid
          exact hmid.1 (List.mem_map.mpr ⟨y, hy, by rw [hyid, hx]⟩)
        have hnd1 : ((m1.orderList ++ Call.added cs).map Order.getOrderId).Nodup := by
          rw [hl1, List.append_assoc]; exact hmid.2
        obtain ⟨m', removed, hr, hwf', hl', hc'⟩ := ih m1 hwf1 hnd1
        refine ⟨m', orderId :: removed, ?_, hwf', ?_, ?_⟩
        · simp [runCalls, h1, hr]
        · rw [hl', hl1, hxs]
          simp only [Call.added, List.append_assoc, List.cons_append]
          exact (filter_drop_removed orderId removed pre x (suf ++ Call.added cs) hx hne).symm
        · rw [hc', hc1]; simp [Call.added]; omega
      · have habs : ∀ o ∈ m.orderList, o.getOrderId ≠ orderId := by
          intro o ho hoid
          exact hocc ⟨o, ho, hoid⟩
        have h1 := OrderManager.removeOrder_of_not_mem m orderId hwf habs
        have hnd1 : ((m.orderList ++ Call.added cs).map Order.getOrderId).Nodup := by
          simpa [Call.added] using hnd
        obtain ⟨m', removed, hr, hwf', hl', hc'⟩ := ih m hwf hnd1
        refine ⟨m', removed, ?_, hwf', ?_, ?_⟩
        · simp [runCalls, h1, hr]
        · rw [hl']; simp [Call.added]
        · rw [hc']; simp [Call.added]

/-! ### Totals -/

theorem baseTotalLoop_spec {α : Type} [Add α] (mn : Menu α) (suf : List (Fin 20)) :
    ∀ (pre : List MenuItemPtr) (rest : Block MenuItemPtr) (n i : Int) (fuel : Nat) (total : α),
      n = ((pre.length + suf.length : Nat) : Int) → i = (pre.length : Int) →
      fuel = suf.length →
      OrderBase.baseTotalLoop mn ((pre ++ suf.map some).map some ++ rest) n fuel i total
        = some (suf.foldl (fun t s => t + (mn s).price) total) := by
  induction suf with
  | nil =>
    intro pre rest n i fuel total hn hi hf
    have : ¬ i < n := by simp at hn; omega
    subst hf
    simp [OrderBase.baseTotalLoop, this]
  | cons x suf ih =>
    intro pre rest n i fuel total hn hi hf
    have hlt : i < n := by simp at hn; omega
    subst hf
    have hr : Block.read ((pre ++ (x :: suf).map some).map some ++ rest) i = some (some x) := by
      have := Block.read_at (pre.map some) (some (some x)) ((suf.map some).map some ++ rest) i
        (by simpa using hi)
      simpa using this
    have := ih (pre ++ [some x]) rest n (i + 1) suf.length (total + (mn x).price)
      (by simp at hn ⊢; omega) (by simp; omega) rfl
    simp only [List.append_assoc, List.singleton_append] at this
    simp only [List.length_cons, OrderBase.baseTotalLoop, hlt, if_true, hr, List.foldl_cons]
    exact this

theorem OrderBase.calculateBaseTotal_eq {α : Type} [Zero α] [Add α] (mn : Menu α)
    (o : OrderBase) (slots : List (Fin 20)) (hwf : o.WF) (hitems : o.itemList = slots.map some) :
    o.calculateBaseTotal mn = some ((slots.map fun s => (mn s).price).foldl (· + ·) 0) := by
  obtain ⟨h0, hle, hlen, hall⟩ := hwf
  obtain ⟨h1, h2⟩ := Block.split_active o.items o.nItems.toNat (by omega) hall
  have hl : o.itemList.length = o.nItems.toNat := h2
  rw [show (o.items.take o.nItems.toNat).reduceOption = o.itemList from rfl, hitems] at h1
  rw [hitems, List.length_map] at hl
  have := baseTotalLoop_spec mn slots [] (o.items.drop o.nItems.toNat) o.nItems 0 o.nItems.toNat
    (0 : α) (by simp; omega) (by simp) hl.symm
  simp only [List.nil_append] at this
  unfold OrderBase.calculateBaseTotal
  rw [h1, this, List.foldl_map]

/-! ## The claims -/

/-- C1: on a well-formed manager, `removeOrder` with an id carried by one of the orders
returns `true`, and the order sequence afterwards is the old sequence with exactly the
first order carrying that id deleted: the old sequence is `pre ++ x :: suf` with `x` the
first order of that id, the new one is `pre ++ suf` (every other order unchanged and in the
same relative order), the count drops by one and the capacity is unchanged. -/
theorem removeOrder_deletes_first {α : Type} (m : OrderManager α) (orderId : Int)
    (hwf : m.WF) (hocc : ∃ o ∈ m.orderList, o.getOrderId = orderId) :
    ∃ (m' : OrderManager α) (pre : List (Order α)) (x : Order α) (suf : List (Order α)),
      m.removeOrder orderId = some (true, m') ∧
      m.orderList = pre ++ x :: suf ∧ x.getOrderId = orderId ∧
      (∀ y ∈ pre, y.getOrderId ≠ orderId) ∧
      m'.orderList = pre ++ suf ∧
      m'.getOrderCount = m.getOrderCount - 1 ∧ m'.capacity = m.capacity ∧ m'.WF :=
  OrderManager.removeOrder_of_mem m orderId hwf hocc

set_option maxRecDepth 8000 in
theorem removeOrder_deletes_first_witness :
    demoManager.WF ∧ (∃ o ∈ demoManager.orderList, o.getOrderId = 2) ∧
    ∃ (m' : OrderManager F32) (pre : List (Order F32)) (x : Order F32) (suf : List (Order F32)),
      demoManager.removeOrder 2 = some (true, m') ∧
      demoManager.orderList = pre ++ x :: suf ∧ x.getOrderId = 2 ∧
      (∀ y ∈ pre, y.getOrderId ≠ 2) ∧
      m'.orderList = pre ++ suf ∧
      m'.getOrderCount = demoManager.getOrderCount - 1 ∧
      m'.capacity = demoManager.capacity ∧ m'.WF :=
  ⟨by decide, by decide, removeOrder_deletes_first demoManager 2 (by decide) (by decide)⟩

/-- C2: on a well-formed manager, `removeOrder` with an id that no order carries returns
`false` and leaves the manager as it was: same cells, same count, same capacity. -/
theorem removeOrder_absent_id {α : Type} (m : OrderManager α) (orderId : Int)
    (hwf : m.WF) (habs : ∀ o ∈ m.orderList, o.getOrderId ≠ orderId) :
    m.removeOrder orderId = some (false, m) :=
  OrderManager.removeOrder_of_not_mem m orderId hwf habs

set_option maxRecDepth 8000 in
theorem removeOrder_absent_id_witness :
    demoManager.WF ∧ (∀ o ∈ demoManager.orderList, o.getOrderId ≠ 7) ∧
    demoManager.removeOrder 7 = some (false, demoManager) :=
  ⟨by decide, by decide, removeOrder_absent_id demoManager 7 (by decide) (by decide)⟩

/-- C3: in a well-formed manager whose orders have pairwise distinct ids, after a
successful `removeOrder orderId` no remaining order carries `orderId` and a second
`removeOrder orderId` returns `false`; and for any orders with ids 1, 2, 3 added in that
order to a new manager, `removeOrder 2` succeeds, leaves exactly the first and the third
order (ids `[1, 3]`), and a further `removeOrder 2` returns `false`. -/
theorem removeOrder_twice_fails {α : Type} :
    (∀ (m m' : OrderManager α) (orderId : Int), m.WF →
      (m.orderList.map Order.getOrderId).Nodup →
      m.removeOrder orderId = some (true, m') →
      (∀ o ∈ m'.orderList, o.getOrderId ≠ orderId) ∧
        m'.removeOrder orderId = some (false, m')) ∧
    (∀ o1 o2 o3 : Order α, o1.getOrderId = 1 → o2.getOrderId = 2 → o3.getOrderId = 3 →
      ∃ m m' : OrderManager α,
        ((OrderManager.new.addOrder o1).bind fun a => (a.addOrder o2).bind fun b =>
          b.addOrder o3) = some m ∧
        m.orderList = [o1, o2, o3] ∧
        m.removeOrder 2 = some (true, m') ∧
        m'.orderList = [o1, o3] ∧ m'.orderList.map Order.getOrderId = [1, 3] ∧
        m'.removeOrder 2 = some (false, m')) := by
  constructor
  · intro m m' orderId hwf hnd hrem
    by_cases hocc : ∃ o ∈ m.orderList, o.getOrderId = orderId
    · obtain ⟨m1, pre, x, suf, h1, hxs, hx, _, hl1, _, _, hwf1⟩ :=
        OrderManager.removeOrder_of_mem m orderId hwf hocc
      rw [h1] at hrem
      obtain rfl : m1 = m' := by simpa using hrem
      rw [hxs, List.map_append, List.map_cons, List.nodup_middle, List.nodup_cons,
        ← List.map_append] at hnd
      have hne : ∀ o ∈ m1.orderList, o.getOrderId ≠ orderId := by
        intro o ho hoid
        rw [hl1] at ho
        exact hnd.1 (List.mem_map.mpr ⟨o, ho, by rw [hoid, hx]⟩)
      exact ⟨hne, OrderManager.removeOrder_of_not_mem m1 orderId hwf1 hne⟩
    · have habs : ∀ o ∈ m.orderList, o.getOrderId ≠ orderId :=
        fun o ho hoid => hocc ⟨o, ho, hoid⟩
      rw [OrderManager.removeOrder_of_not_mem m orderId hwf habs] at hrem
      simp at hrem
  · intro o1 o2 o3 h1 h2 h3
    obtain ⟨a, ha, hwfa, hla, _⟩ := OrderManager.addOrder_of_wf OrderManager.new o1
      OrderManager.wf_new.1
    obtain ⟨b, hb, hwfb, hlb, _⟩ := OrderManager.addOrder_of_wf a o2 hwfa
    obtain ⟨c, hc, hwfc, hlc, _⟩ := OrderManager.addOrder_of_wf b o3 hwfb
    have hl : c.orderList = [o1] ++ o2 :: [o3] := by
      rw [hlc, hlb, hla, OrderManager.wf_new.2]; rfl
    obtain ⟨m', hr, hl', _, _, hwf'⟩ := OrderManager.removeOrder_at c 2 [o1] o2 [o3] hwfc hl h2
      (by intro y hy; rw [List.mem_singleton.mp hy, h1]; decide)
    have hne : ∀ o ∈ m'.orderList, o.getOrderId ≠ 2 := by
      intro o ho
      rw [hl'] at ho
      simp only [List.singleton_append, List.mem_cons, List.mem_singleton, List.not_mem_nil,
        or_false] at ho
      rcases ho with rfl | rfl
      · rw [h1]; decide
      · rw [h3]; decide
    refine ⟨c, m', ?_, hl, hr, hl', ?_, OrderManager.removeOrder_of_not_mem m' 2 hwf' hne⟩
    · simp [ha, hb, hc]
    · rw [hl']; simp [h1, h3]

theorem removeOrder_twice_fails_witness :
    sampleManager.WF ∧ (sampleManager.orderList.map Order.getOrderId).Nodup ∧
    sampleManager.removeOrder 2
      = some (true, { sampleManager with
          orders := [some (sampleOrder 1), some (sampleOrder 3), some (sampleOrder 3), none],
          nOrders := 2 }) ∧
    ((∀ o ∈ OrderManager.orderList { sampleManager with
          orders := [some (sampleOrder 1), some (sampleOrder 3), some (sampleOrder 3), none],
          nOrders := 2 }, o.getOrderId ≠ 2) ∧
      OrderManager.removeOrder { sampleManager with
          orders := [some (sampleOrder 1), some (sampleOrder 3), some (sampleOrder 3), none],
          nOrders := 2 } 2
        = some (false, { sampleManager with
          orders := [some (sampleOrder 1), some (sampleOrder 3), some (sampleOrder 3), none],
          nOrders := 2 })) :=
  ⟨by decide, by decide, by decide,
    removeOrder_twice_fails.1 sampleManager _ 2 (by decide) (by decide) (by decide)⟩

/-- C4: a sequence of `addOrder` and `removeOrder` calls on a new manager, in which the
added orders have pairwise distinct ids, runs without fault; reading the result through
`getOrder 0 .. getOrder (getOrderCount - 1)` gives the added orders in insertion order with
exactly those whose id was successfully removed filtered out, and `getOrderCount` is the
number of adds minus the number of `removeOrder` calls that returned `true`. -/
theorem runCalls_order_sequence {α : Type} (cs : List (Call α))
    (hnd : ((Call.added cs).map Order.getOrderId).Nodup) :
    ∃ (m : OrderManager α) (removed : List Int),
      runCalls OrderManager.new cs = some (m, removed) ∧
      m.readAll = ((Call.added cs).filter fun o => decide (o.getOrderId ∉ removed)).map
        (fun o => some (some o)) ∧
      m.getOrderCount = ((Call.added cs).length : Int) - (removed.length : Int) := by
  obtain ⟨m, removed, hr, hwf, hl, hc⟩ := runCalls_spec cs OrderManager.new
    OrderManager.wf_new.1 (by rw [OrderManager.wf_new.2]; exact hnd)
  refine ⟨m, removed, hr, ?_, ?_⟩
  · rw [OrderManager.readAll_eq m hwf, hl, OrderManager.wf_new.2, List.nil_append]
  · rw [hc]; simp [OrderManager.getOrderCount, OrderManager.new]

theorem runCalls_order_sequence_witness :
    ((Call.added [Call.add (sampleOrder 1), Call.remove 2, Call.add (sampleOrder 2),
        Call.add (sampleOrder 3), Call.remove 2, Call.remove 2]).map Order.getOrderId).Nodup ∧
    ∃ (m : OrderManager F32) (removed : List Int),
      runCalls OrderManager.new [Call.add (sampleOrder 1), Call.remove 2,
        Call.add (sampleOrder 2), Call.add (sampleOrder 3), Call.remove 2, Call.remove 2]
        = some (m, removed) ∧
      m.readAll = ((Call.added [Call.add (sampleOrder 1), Call.remove 2,
        Call.add (sampleOrder 2), Call.add (sampleOrder 3), Call.remove 2,
        Call.remove 2]).filter fun o => decide (o.getOrderId ∉ removed)).map
        (fun o => some (some o)) ∧
      m.getOrderCount = ((Call.added [Call.add (sampleOrder 1), Call.remove 2,
        Call.add (sampleOrder 2), Call.add (sampleOrder 3), Call.remove 2,
        Call.remove 2]).length : Int) - (removed.length : Int) :=
  ⟨by decide, runCalls_order_sequence _ (by decide)⟩

/-- C6: on a well-formed manager `getOrder index` never faults; it returns the order at
position `index` of the order sequence when `0 ≤ index < getOrderCount`, and `nullptr`
(the inner `none`) otherwise, in particular for a negative index and for
`index = getOrderCount`.  The result depends only on the active part of the block. -/
theorem getOrder_bounds_checked {α : Type} (m : OrderManager α) (index : Int) (hwf : m.WF) :
    (0 ≤ index ∧ index < m.getOrderCount →
      ∃ o : Order α, m.orderList[index.toNat]? = some o ∧ m.getOrder index = some (some o)) ∧
    (¬ (0 ≤ index ∧ index < m.getOrderCount) → m.getOrder index = some none) ∧
    (index < 0 → m.getOrder index = some none) ∧
    m.getOrder m.getOrderCount = some none ∧
    (∀ m2 : OrderManager α, m2.WF → m2.orderList = m.orderList →
      m2.getOrder index = m.getOrder index) := by
  obtain ⟨_, _, hn, _⟩ := hwf.split
  have hcount : m.getOrderCount = (m.orderList.length : Int) := hn
  refine ⟨?_, ?_, ?_, ?_, ?_⟩
  rotate_right
  · intro m2 hwf2 hl
    obtain ⟨_, _, hn2, _⟩ := hwf2.split
    have hcount2 : m2.getOrderCount = m.getOrderCount := by
      rw [hcount, ← hl]; exact hn2
    rw [OrderManager.getOrder_eq m _ hwf, OrderManager.getOrder_eq m2 _ hwf2, hcount2, hl]
  · intro h
    have hk : index.toNat < m.orderList.length := by omega
    exact ⟨m.orderList[index.toNat], List.getElem?_eq_getElem hk, by
      rw [OrderManager.getOrder_eq m _ hwf, if_pos h, List.getElem?_eq_getElem hk]⟩
  · intro h
    rw [OrderManager.getOrder_eq m _ hwf, if_neg h]
  · intro h
    rw [OrderManager.getOrder_eq m _ hwf, if_neg (by omega)]
  · rw [OrderManager.getOrder_eq m _ hwf, if_neg (by omega)]

theorem getOrder_bounds_checked_witness :
    sampleManager.WF ∧
    (0 ≤ (1 : Int) ∧ (1 : Int) < sampleManager.getOrderCount →
      ∃ o : Order F32, sampleManager.orderList[(1 : Int).toNat]? = some o ∧
        sampleManager.getOrder 1 = some (some o)) ∧
    (¬ (0 ≤ (1 : Int) ∧ (1 : Int) < sampleManager.getOrderCount) →
      sampleManager.getOrder 1 = some none) ∧
    ((1 : Int) < 0 → sampleManager.getOrder 1 = some none) ∧
    sampleManager.getOrder sampleManager.getOrderCount = some none ∧
    (∀ m2 : OrderManager F32, m2.WF → m2.orderList = sampleManager.orderList →
      m2.getOrder 1 = sampleManager.getOrder 1) :=
  ⟨by decide, getOrder_bounds_checked sampleManager 1 (by decide)⟩

/-- C7: for a dine-in order whose item array is well formed and whose stored references
are the menu slots `slots` (in list order, repeats included), `getTotal` returns
`base + base * serviceCharge`, where `base` is the sum of the prices of those slots
accumulated from `0` in list order; this holds for every menu content, every service rate
and every arithmetic. -/
theorem dineIn_getTotal_eq {α : Type} [Zero α] [Add α] [Mul α] (mn : Menu α)
    (o : DineInOrder α) (slots : List (Fin 20))
    (hwf : o.toOrderBase.WF) (hitems : o.toOrderBase.itemList = slots.map some) :
    o.getTotal mn
      = some ((slots.map fun s => (mn s).price).foldl (· + ·) 0
          + (slots.map fun s => (mn s).price).foldl (· + ·) 0 * o.getServiceCharge) := by
  unfold DineInOrder.getTotal
  rw [OrderBase.calculateBaseTotal_eq mn o.toOrderBase slots hwf hitems]
  rfl

set_option maxRecDepth 8000 in
theorem dineIn_getTotal_eq_witness :
    demoDineIn.toOrderBase.WF ∧
    demoDineIn.toOrderBase.itemList = ([0, 1, 4] : List (Fin 20)).map some ∧
    demoDineIn.getTotal menu
      = some ((([0, 1, 4] : List (Fin 20)).map fun s => ((menu : Menu F32) s).price).foldl
            (· + ·) 0
          + (([0, 1, 4] : List (Fin 20)).map fun s => ((menu : Menu F32) s).price).foldl
            (· + ·) 0 * demoDineIn.getServiceCharge) :=
  ⟨by decide, by decide, dineIn_getTotal_eq menu demoDineIn [0, 1, 4] (by decide) (by decide)⟩

/-- C8: for a pickup order whose item array is well formed and whose stored references are
the menu slots `slots` (repeats included), `getTotal` returns `base + packagingFee`, where
`base` is the sum of the prices of those slots accumulated from `0` in list order; this
holds for every menu content, every fee and every arithmetic. -/
theorem pickUp_getTotal_eq {α : Type} [Zero α] [Add α] (mn : Menu α)
    (o : PickUpOrder α) (slots : List (Fin 20))
    (hwf : o.toOrderBase.WF) (hitems : o.toOrderBase.itemList = slots.map some) :
    o.getTotal mn
      = some ((slots.map fun s => (mn s).price).foldl (· + ·) 0 + o.getPackagingFee) := by
  unfold PickUpOrder.getTotal
  rw [OrderBase.calculateBaseTotal_eq mn o.toOrderBase slots hwf hitems]
  rfl

set_option maxRecDepth 8000 in
theorem pickUp_getTotal_eq_witness :
    demoPickup.toOrderBase.WF ∧
    demoPickup.toOrderBase.itemList = ([2, 3] : List (Fin 20)).map some ∧
    demoPickup.getTotal menu
      = some ((([2, 3] : List (Fin 20)).map fun s => ((menu : Menu F32) s).price).foldl
          (· + ·) 0 + demoPickup.getPackagingFee) :=
  ⟨by decide, by decide, pickUp_getTotal_eq menu demoPickup [2, 3] (by decide) (by decide)⟩

/-! ### The totals of the demonstration -/

theorem demo_dineIn_total (α : Type) [Zero α] [Add α] [Mul α] [OfScientific α] :
    (demonstrateSystem (menu : Menu α) nextOrderId).bind (fun d => d.dineIn.getTotal menu)
      = some ((0 + 12.99 + 15.50 + 24.99) + (0 + 12.99 + 15.50 + 24.99) * 0.18) := rfl

theorem demo_pickup_total (α : Type) [Zero α] [Add α] [Mul α] [OfScientific α] :
    (demonstrateSystem (menu : Menu α) nextOrderId).bind (fun d => d.pickup.getTotal menu)
      = some (0 + 11.25 + 8.75 + 2.00) := rfl

theorem demo_dineIn_total_rat :
    (demonstrateSystem (menu : Menu ℚ) nextOrderId).bind (fun d => d.dineIn.getTotal menu)
      = some ((12.99 + 15.50 + 24.99) * 1.18) := by
  rw [demo_dineIn_total ℚ]
  norm_num

set_option maxRecDepth 8000 in
theorem demo_dineIn_total_f32 :
    (demonstrateSystem (menu : Menu F32) nextOrderId).bind (fun d => d.dineIn.getTotal menu)
      = some (F32.fin false 16542964 (-18)) := by
  rw [demo_dineIn_total F32]
  decide

theorem roundCents_exact_total : roundCents ((12.99 + 15.50 + 24.99) * 1.18) = 6311 := by
  unfold roundCents
  rw [Int.floor_eq_iff]
  norm_num

theorem roundCents_f32_total : roundCents (F32.toRat (F32.fin false 16542964 (-18))) = 6311 := by
  unfold roundCents F32.toRat F32.signed
  rw [Int.floor_eq_iff]
  norm_num

/-- C9 fails as stated: the total of the demonstration's dine-in order (Burger, Pizza, Steak
at 18%) does not round to 63.21, neither in exact arithmetic, where it is
`(12.99 + 15.50 + 24.99) * 1.18`, nor in binary32 arithmetic. -/
theorem demo_dineIn_total_not_6321 :
    ¬ ((demonstrateSystem (menu : Menu ℚ) nextOrderId).bind (fun d => d.dineIn.getTotal menu)
          = some ((12.99 + 15.50 + 24.99) * 1.18) ∧
        roundCents ((12.99 + 15.50 + 24.99) * 1.18) = 6321) ∧
    ¬ ∃ t : F32,
        (demonstrateSystem (menu : Menu F32) nextOrderId).bind (fun d => d.dineIn.getTotal menu)
          = some t ∧ roundCents t.toRat = 6321 := by
  constructor
  · rintro ⟨_, h⟩
    rw [roundCents_exact_total] at h
    exact absurd h (by decide)
  · rintro ⟨t, ht, h⟩
    rw [demo_dineIn_total_f32] at ht
    obtain rfl : F32.fin false 16542964 (-18) = t := by simpa using ht
    rw [roundCents_f32_total] at h
    exact absurd h (by decide)

set_option maxRecDepth 8000 in
/-- C9, amended: the total of the demonstration's dine-in order is
`(12.99 + 15.50 + 24.99) * 1.18 = 63.1064` in exact arithmetic and the binary32 value
nearest to `63.1064` in binary32 arithmetic; rounded to two decimals it is 63.11 in both. -/
theorem demo_dineIn_total_6311 :
    (demonstrateSystem (menu : Menu ℚ) nextOrderId).bind (fun d => d.dineIn.getTotal menu)
      = some ((12.99 + 15.50 + 24.99) * 1.18) ∧
    ((12.99 + 15.50 + 24.99) * 1.18 : ℚ) = 63.1064 ∧
    roundCents ((12.99 + 15.50 + 24.99) * 1.18) = 6311 ∧
    (demonstrateSystem (menu : Menu F32) nextOrderId).bind (fun d => d.dineIn.getTotal menu)
      = some (63.1064 : F32) ∧
    roundCents (F32.toRat (63.1064 : F32)) = 6311 := by
  have h : (63.1064 : F32) = F32.fin false 16542964 (-18) := by decide
  refine ⟨demo_dineIn_total_rat, by norm_num, roundCents_exact_total, ?_, ?_⟩
  · rw [h]; exact demo_dineIn_total_f32
  · rw [h]; exact roundCents_f32_total

set_option maxRecDepth 8000 in
/-- C10: the total of the demonstration's pickup order (Pasta, Salad, fee 2.00) is
`11.25 + 8.75 + 2.00 = 22.00` exactly, in exact arithmetic and in binary32 arithmetic. -/
theorem demo_pickup_total_22 :
    (demonstrateSystem (menu : Menu ℚ) nextOrderId).bind (fun d => d.pickup.getTotal menu)
      = some (11.25 + 8.75 + 2.00) ∧
    (11.25 + 8.75 + 2.00 : ℚ) = 22.00 ∧
    (demonstrateSystem (menu : Menu F32) nextOrderId).bind (fun d => d.pickup.getTotal menu)
      = some (22.00 : F32) ∧
    F32.toRat (22.00 : F32) = 22 := by
  have h : (22.00 : F32) = F32.fin false 11534336 (-19) := by decide
  refine ⟨?_, by norm_num, ?_, ?_⟩
  · rw [demo_pickup_total ℚ]; norm_num
  · rw [demo_pickup_total F32, h]; decide
  · rw [h]; unfold F32.toRat F32.signed; norm_num

/-! ## Menu lookup -/

theorem findMenuItemLoop_some {α : Type} (mn : Menu α) (name : String) (fuel : Nat) :
    ∀ (i : Nat), fuel + i = 20 → ∀ j : Fin 20,
      (findMenuItemLoop mn name fuel i = some j ↔
        i ≤ j.val ∧ (0 < (mn j).name.length ∧ (mn j).name = name) ∧
          ∀ k : Fin 20, i ≤ k.val → k.val < j.val →
            ¬ (0 < (mn k).name.length ∧ (mn k).name = name)) := by
  induction fuel with
  | zero =>
    intro i hi j
    have := j.isLt
    simp only [findMenuItemLoop]
    constructor
    · intro h; cases h
    · rintro ⟨h, _⟩; omega
  | succ fuel ih =>
    intro i hi j
    have hlt : i < 20 := by omega
    simp only [findMenuItemLoop, dif_pos hlt]
    by_cases hm : 0 < (mn ⟨i, hlt⟩).name.length ∧ (mn ⟨i, hlt⟩).name = name
    · rw [if_pos hm]
      constructor
      · intro h
        obtain rfl : (⟨i, hlt⟩ : Fin 20) = j := by simpa using h
        exact ⟨le_refl _, hm, fun k h1 h2 => by simp at h2; omega⟩
      · rintro ⟨h1, _, h3⟩
        by_cases hij : i = j.val
        · congr 1; exact Fin.ext hij
        · exact absurd hm (h3 ⟨i, hlt⟩ (le_refl _) (by simp; omega))
    · rw [if_neg hm, ih (i + 1) (by omega) j]
      constructor
      · rintro ⟨h1, h2, h3⟩
        refine ⟨by omega, h2, ?_⟩
        intro k hk1 hk2
        by_cases hki : k.val = i
        · have : k = ⟨i, hlt⟩ := Fin.ext hki
          rw [this]; exact hm
        · exact h3 k (by omega) hk2
      · rintro ⟨h1, h2, h3⟩
        have hne : i ≠ j.val := by
          intro h
          have : j = ⟨i, hlt⟩ := Fin.ext h.symm
          rw [this] at h2; exact hm h2
        exact ⟨by omega, h2, fun k hk1 hk2 => h3 k (by omega) hk2⟩

theorem findMenuItemLoop_none {α : Type} (mn : Menu α) (name : String) (fuel : Nat) :
    ∀ (i : Nat), fuel + i = 20 →
      (findMenuItemLoop mn name fuel i = none ↔
        ∀ k : Fin 20, i ≤ k.val → ¬ (0 < (mn k).name.length ∧ (mn k).name = name)) := by
  induction fuel with
  | zero =>
    intro i hi
    simp only [findMenuItemLoop, true_iff]
    intro k hk
    have := k.isLt
    omega
  | succ fuel ih =>
    intro i hi
    have hlt : i < 20 := by omega
    simp only [findMenuItemLoop, dif_pos hlt]
    by_cases hm : 0 < (mn ⟨i, hlt⟩).name.length ∧ (mn ⟨i, hlt⟩).name = name
    · rw [if_pos hm]
      constructor
      · intro h; cases h
      · intro h; exact absurd hm (h ⟨i, hlt⟩ (le_refl _))
    · rw [if_neg hm, ih (i + 1) (by omega)]
      constructor
      · intro h k hk
        by_cases hki : k.val = i
        · have : k = ⟨i, hlt⟩ := Fin.ext hki
          rw [this]; exact hm
        · exact h k (by omega)
      · intro h k hk
        exact h k (by omega)

theorem findMenuItem_eq_some {α : Type} (mn : Menu α) (name : String) (j : Fin 20) :
    findMenuItem mn name = some j ↔
      (0 < (mn j).name.length ∧ (mn j).name = name) ∧
        ∀ k : Fin 20, k < j → ¬ (0 < (mn k).name.length ∧ (mn k).name = name) := by
  unfold findMenuItem
  rw [findMenuItemLoop_some mn name 20 0 rfl j]
  constructor
  · rintro ⟨_, h2, h3⟩
    exact ⟨h2, fun k hk => h3 k (Nat.zero_le _) hk⟩
  · rintro ⟨h2, h3⟩
    exact ⟨Nat.zero_le _, h2, fun k _ hk => h3 k hk⟩

theorem findMenuItem_eq_none {α : Type} (mn : Menu α) (name : String) :
    findMenuItem mn name = none ↔
      ∀ k : Fin 20, ¬ (0 < (mn k).name.length ∧ (mn k).name = name) := by
  unfold findMenuItem
  rw [findMenuItemLoop_none mn name 20 0 rfl]
  exact ⟨fun h k => h k (Nat.zero_le _), fun h k _ => h k⟩

/-! ## Identifiers along a program run -/

theorem wrapInt_of_inRange (x : Int) (h1 : INT_MIN ≤ x) (h2 : x ≤ INT_MAX) : wrapInt x = x := by
  unfold wrapInt
  unfold INT_MIN at h1
  unfold INT_MAX at h2
  omega

theorem wrapInt_wrapInt_add (a b : Int) : wrapInt (wrapInt a + b) = wrapInt (a + b) := by
  unfold wrapInt
  omega

theorem wrapInt_idem (a : Int) : wrapInt (wrapInt a) = wrapInt a := by
  unfold wrapInt
  omega

theorem World.step_spec {α : Type} (w : World α) (op : Op α) (hwf : w.manager.WF) :
    ∃ w' : World α, w.step op = some w' ∧ w'.manager.WF ∧
      (op.isConstruction = true → w'.nextOrderId = wrapInt (w.nextOrderId + 1) ∧
        w'.created.map Order.getOrderId
          = w.created.map Order.getOrderId ++ [wrapInt (w.nextOrderId + 1)]) ∧
      (op.isConstruction = false → w'.nextOrderId = w.nextOrderId ∧ w'.created = w.created) := by
  cases op with
  | newDineIn r =>
    exact ⟨_, rfl, hwf, fun _ => ⟨rfl, by simp [Order.getOrderId, Order.base,
      OrderBase.getOrderId, DineInOrder.new, OrderBase.new]⟩, fun h => by simp [Op.isConstruction] at h⟩
  | newPickUp f =>
    exact ⟨_, rfl, hwf, fun _ => ⟨rfl, by simp [Order.getOrderId, Order.base,
      OrderBase.getOrderId, PickUpOrder.new, OrderBase.new]⟩, fun h => by simp [Op.isConstruction] at h⟩
  | addOrder k =>
    cases hk : w.created[k]? with
    | none =>
      exact ⟨w, by simp [World.step, hk], hwf, fun h => by simp [Op.isConstruction] at h,
        fun _ => ⟨rfl, rfl⟩⟩
    | some o =>
      obtain ⟨m', h1, hwf', _, _⟩ := OrderManager.addOrder_of_wf w.manager o hwf
      exact ⟨{ w with manager := m' }, by simp [World.step, hk, h1], hwf',
        fun h => by simp [Op.isConstruction] at h, fun _ => ⟨rfl, rfl⟩⟩
  | removeOrder orderId =>
    by_cases hocc : ∃ o ∈ w.manager.orderList, o.getOrderId = orderId
    · obtain ⟨m', _, _, _, h1, _, _, _, _, _, _, hwf'⟩ :=
        OrderManager.removeOrder_of_mem w.manager orderId hwf hocc
      exact ⟨{ w with manager := m' }, by simp [World.step, h1], hwf',
        fun h => by simp [Op.isConstruction] at h, fun _ => ⟨rfl, rfl⟩⟩
    · have h1 := OrderManager.removeOrder_of_not_mem w.manager orderId hwf
        (fun o ho hoid => hocc ⟨o, ho, hoid⟩)
      exact ⟨w, by simp [World.step, h1], hwf,
        fun h => by simp [Op.isConstruction] at h, fun _ => ⟨rfl, rfl⟩⟩

theorem World.run_spec {α : Type} (ops : List (Op α)) :
    ∀ w : World α, w.manager.WF → wrapInt w.nextOrderId = w.nextOrderId →
      ∃ w' : World α, w.run ops = some w' ∧ w'.manager.WF ∧
        w'.nextOrderId = wrapInt (w.nextOrderId + ((ops.countP Op.isConstruction : Nat) : Int)) ∧
        w'.created.map Order.getOrderId
          = w.created.map Order.getOrderId
            ++ (List.range (ops.countP Op.isConstruction)).map
                fun (k : Nat) => wrapInt (w.nextOrderId + 1 + (k : Int)) := by
  induction ops with
  | nil =>
    intro w hwf hc
    exact ⟨w, rfl, hwf, by simp [hc], by simp⟩
  | cons op ops ih =>
    intro w hwf hc
    obtain ⟨w1, h1, hwf1, hcon, hn⟩ := World.step_spec w op hwf
    cases hop : op.isConstruction with
    | true =>
      obtain ⟨w', h', hwf', hid, hcr⟩ := ih w1 hwf1 (by rw [(hcon hop).1, wrapInt_idem])
      refine ⟨w', by simp [World.run, h1, h'], hwf', ?_, ?_⟩
      · rw [hid, (hcon hop).1, List.countP_cons_of_pos _ _ hop, wrapInt_wrapInt_add]
        congr 1
        push_cast; ring
      · rw [hcr, (hcon hop).1, (hcon hop).2, List.countP_cons_of_pos _ _ hop,
          List.range_succ_eq_map, List.map_cons, List.map_map, List.append_assoc]
        congr 1
        simp only [List.singleton_append, Nat.cast_zero, add_zero, List.cons.injEq, true_and]
        apply List.map_congr_left
        intro k _
        simp only [Function.comp, Nat.cast_succ]
        unfold wrapInt
        omega
    | false =>
      obtain ⟨w', h', hwf', hid, hcr⟩ := ih w1 hwf1 (by rw [(hn hop).1]; exact hc)
      refine ⟨w', by simp [World.run, h1, h'], hwf', ?_, ?_⟩
      · rw [hid, (hn hop).1, List.countP_cons_of_neg _ _ (by simp [hop])]
      · rw [hcr, (hn hop).1, (hn hop).2, List.countP_cons_of_neg _ _ (by simp [hop])]

theorem World.run_replicate_newPickUp {α : Type} (fee : α) (n : Nat) :
    ∃ w : World α, World.init.run (List.replicate n (Op.newPickUp fee)) = some w ∧
      ∀ i : Nat, i < n →
        (w.created.map Order.getOrderId)[i]? = some (wrapInt ((i : Int) + 1)) := by
  obtain ⟨w, hr, _, _, hc⟩ := World.run_spec (List.replicate n (Op.newPickUp fee))
    (World.init : World α) OrderManager.wf_new.1 rfl
  refine ⟨w, hr, ?_⟩
  intro i hi
  rw [hc, List.countP_replicate,
    if_pos (show (Op.newPickUp fee).isConstruction = true from rfl)]
  show ([] ++ (List.range n).map fun (k : Nat) => wrapInt (Restaurant.nextOrderId + 1 + (k : Int)))[i]?
    = some (wrapInt ((i : Int) + 1))
  rw [List.nil_append, List.getElem?_map, List.getElem?_range hi]
  show some (wrapInt (0 + 1 + (i : Int))) = some (wrapInt ((i : Int) + 1))
  congr 2
  ring

/-! ## The item array -/

namespace OrderBase

theorem WF.splitItems {o : OrderBase} (h : o.WF) :
    ∃ rest : Block MenuItemPtr, o.items = o.itemList.map some ++ rest ∧
      o.nItems = (o.itemList.length : Int) ∧
      o.capacity = ((o.itemList.length + rest.length : Nat) : Int) := by
  obtain ⟨h0, hle, hlen, hall⟩ := h
  have hn : o.nItems.toNat ≤ o.items.length := by omega
  obtain ⟨h1, h2⟩ := Block.split_active o.items o.nItems.toNat hn hall
  refine ⟨o.items.drop o.nItems.toNat, h1, ?_, ?_⟩
  · unfold itemList; rw [h2]; omega
  · unfold itemList; rw [h2]; simp; omega

theorem wf_of_splitItems (orderId : Int) (xs : List MenuItemPtr) (rest : Block MenuItemPtr)
    (n cap : Int) (hn : n = (xs.length : Int))
    (hcap : cap = ((xs.length + rest.length : Nat) : Int)) :
    (OrderBase.mk orderId (xs.map some ++ rest) n cap).WF ∧
    (OrderBase.mk orderId (xs.map some ++ rest) n cap).itemList = xs := by
  subst hn hcap
  constructor
  · refine ⟨by simp, by simp, by simp, ?_⟩
    intro c hc
    simp only [Int.toNat_ofNat] at hc
    rw [List.take_left' (by simp)] at hc
    obtain ⟨x, _, rfl⟩ := List.mem_map.mp hc
    rfl
  · simp only [itemList, Int.toNat_ofNat]
    rw [List.take_left' (by simp)]
    exact reduceOption_map_some xs

theorem addItem_split (orderId : Int) (xs : List MenuItemPtr) (rest : Block MenuItemPtr)
    (r : MenuItemPtr) :
    ∃ rest' : Block MenuItemPtr,
      addItem ⟨orderId, xs.map some ++ rest, (xs.length : Nat),
          ((xs.length + rest.length : Nat) : Int)⟩ r
        = some ⟨orderId, (xs ++ [r]).map some ++ rest', ((xs ++ [r]).length : Nat),
            (((xs ++ [r]).length + rest'.length : Nat) : Int)⟩ := by
  cases rest with
  | nil =>
    obtain ⟨K, hK⟩ : ∃ K : Nat,
        (if ((xs.length + 0 : Nat) : Int) = 0 then (2 : Int) else ((xs.length + 0 : Nat) : Int) * 2)
          = ((xs.length + (K + 1) : Nat) : Int) := by
      by_cases h0 : ((xs.length + 0 : Nat) : Int) = 0
      · exact ⟨1, by rw [if_pos h0]; omega⟩
      · exact ⟨xs.length - 1, by rw [if_neg h0]; omega⟩
    have hcopy := copyLoop_spec xs [] [] (List.replicate (xs.length + (K + 1)) none)
      (xs.length : Int) 0 (by simp) (by simp) (by simp)
    simp only [List.nil_append, List.map_nil, List.append_nil, List.drop_replicate,
      Nat.add_sub_cancel_left, List.replicate_succ] at hcopy
    have hw := Block.write_at (xs.map some) none (List.replicate K none) (xs.length : Int) r
      (by simp)
    refine ⟨List.replicate K none, ?_⟩
    unfold addItem
    simp only [List.length_nil, List.append_nil, Block.alloc, hK, Int.toNat_ofNat]
    rw [if_pos (by omega), hcopy]
    simp only [Option.map_some', Option.some_bind, hw]
    simp
    omega
  | cons c rest =>
    refine ⟨rest, ?_⟩
    have hw := Block.write_at (xs.map some) c rest (xs.length : Int) r (by simp)
    have hlt : ¬ ((xs.length + (c :: rest).length : Nat) : Int) ≤ (xs.length : Int) := by
      rw [List.length_cons]; omega
    unfold addItem
    simp only [hlt, if_false, Option.some_bind, hw, Option.map_some']
    simp
    omega

theorem wf_newOrder (c : Int) : (OrderBase.new c).1.WF ∧ (OrderBase.new c).1.itemList = [] :=
  wf_of_splitItems (wrapInt (c + 1)) [] [] 0 0 rfl rfl

theorem addItem_of_wf (o : OrderBase) (r : MenuItemPtr) (hwf : o.WF) :
    ∃ o' : OrderBase, o.addItem r = some o' ∧ o'.WF ∧
      o'.itemList = o.itemList ++ [r] ∧ o'.getItemCount = o.getItemCount + 1 ∧
      o'.orderId = o.orderId := by
  obtain ⟨rest, hord, hn, hcap⟩ := hwf.splitItems
  obtain ⟨orderId, items, n, cap⟩ := o
  obtain ⟨rest', h⟩ := addItem_split orderId (itemList ⟨orderId, items, n, cap⟩) rest r
  simp only at hord hn hcap
  rw [← hord, ← hn, ← hcap] at h
  have hwf' := wf_of_splitItems orderId (itemList ⟨orderId, items, n, cap⟩ ++ [r]) rest' _ _ rfl rfl
  refine ⟨_, h, hwf'.1, hwf'.2, ?_, rfl⟩
  simp only [getItemCount, List.length_append, List.length_singleton]
  omega

theorem addItems_of_wf (rs : List MenuItemPtr) :
    ∀ o : OrderBase, o.WF →
      ∃ o' : OrderBase, o.addItems rs = some o' ∧ o'.WF ∧
        o'.itemList = o.itemList ++ rs ∧
        o'.getItemCount = o.getItemCount + (rs.length : Int) ∧ o'.orderId = o.orderId := by
  induction rs with
  | nil =>
    intro o hwf
    exact ⟨o, rfl, hwf, by simp, by simp, rfl⟩
  | cons r rs ih =>
    intro o hwf
    obtain ⟨o1, h1, hwf1, hl1, hc1, hid1⟩ := addItem_of_wf o r hwf
    obtain ⟨o', h', hwf', hl', hc', hid'⟩ := ih o1 hwf1
    refine ⟨o', by simp [addItems, h1, h'], hwf', ?_, ?_, by rw [hid', hid1]⟩
    · rw [hl', hl1]; simp
    · rw [hc', hc1]; simp; omega

end OrderBase

/-! ## The base total over nullable references -/

theorem baseTotalLoop_eq_sumPrices {α : Type} [Add α] (mn : Menu α) (suf : List MenuItemPtr) :
    ∀ (pre : List MenuItemPtr) (rest : Block MenuItemPtr) (n i : Int) (fuel : Nat) (total : α),
      n = ((pre.length + suf.length : Nat) : Int) → i = (pre.length : Int) →
      fuel = suf.length →
      OrderBase.baseTotalLoop mn ((pre ++ suf).map some ++ rest) n fuel i total
        = sumPrices mn total suf := by
  induction suf with
  | nil =>
    intro pre rest n i fuel total hn hi hf
    have : ¬ i < n := by simp at hn; omega
    subst hf
    simp [OrderBase.baseTotalLoop, sumPrices, this]
  | cons x suf ih =>
    intro pre rest n i fuel total hn hi hf
    have hlt : i < n := by simp at hn; omega
    subst hf
    have hr : Block.read ((pre ++ x :: suf).map some ++ rest) i = some x := by
      have := Block.read_at (pre.map some) (some x) (suf.map some ++ rest) i
        (by simpa using hi)
      simpa using this
    cases x with
    | none =>
      simp only [List.length_cons, OrderBase.baseTotalLoop, hlt, if_true, hr, sumPrices]
    | some slot =>
      have := ih (pre ++ [some slot]) rest n (i + 1) suf.length (total + (mn slot).price)
        (by simp at hn ⊢; omega) (by simp; omega) rfl
      simp only [List.append_assoc, List.singleton_append] at this
      simp only [List.length_cons, OrderBase.baseTotalLoop, hlt, if_true, hr, sumPrices]
      exact this

theorem OrderBase.calculateBaseTotal_eq_sumPrices {α : Type} [Zero α] [Add α] (mn : Menu α)
    (o : OrderBase) (hwf : o.WF) :
    o.calculateBaseTotal mn = sumPrices mn 0 o.itemList := by
  obtain ⟨rest, hitems, hn, _⟩ := hwf.splitItems
  have := baseTotalLoop_eq_sumPrices mn o.itemList [] rest o.nItems 0 o.nItems.toNat (0 : α)
    (by simp; omega) (by simp) (by omega)
  simp only [List.nil_append] at this
  unfold OrderBase.calculateBaseTotal
  rw [hitems]
  exact this

theorem sumPrices_isSome {α : Type} [Add α] (mn : Menu α) (rs : List MenuItemPtr) :
    ∀ total : α, (sumPrices mn total rs).isSome = true ↔ ∀ r ∈ rs, r.isSome = true := by
  induction rs with
  | nil => intro total; simp [sumPrices]
  | cons r rs ih =>
    intro total
    cases r with
    | none => simp [sumPrices]
    | some slot => simp [sumPrices, ih]

theorem sumPrices_map_some {α : Type} [Add α] (mn : Menu α) (slots : List (Fin 20)) :
    ∀ total : α, sumPrices mn total (slots.map some)
      = some ((slots.map fun s => (mn s).price).foldl (· + ·) total) := by
  induction slots with
  | nil => intro total; rfl
  | cons s slots ih => intro total; simp [sumPrices, ih]

/-! ## Capacities -/

theorem sumPrices_append_some {α : Type} [Add α] (mn : Menu α) (slot : Fin 20)
    (rs : List MenuItemPtr) :
    ∀ total : α, sumPrices mn total (rs ++ [some slot])
      = (sumPrices mn total rs).map fun b => b + (mn slot).price := by
  induction rs with
  | nil => intro total; rfl
  | cons r rs ih =>
    intro total
    cases r with
    | none => rfl
    | some s => exact ih (total + (mn s).price)

theorem sumPrices_perm (mn : Menu ℚ) {rs1 rs2 : List MenuItemPtr} (h : rs1.Perm rs2) :
    ∀ total : ℚ, sumPrices mn total rs1 = sumPrices mn total rs2 := by
  induction h with
  | nil => intro total; rfl
  | cons x _ ih =>
    intro total
    cases x with
    | none => rfl
    | some s => simp only [sumPrices, ih]
  | swap x y l =>
    intro total
    cases x with
    | none => cases y <;> rfl
    | some a =>
      cases y with
      | none => rfl
      | some b => simp only [sumPrices, add_right_comm]
  | trans _ _ ih1 ih2 => intro total; rw [ih1, ih2]

theorem OrderBase.calculateBaseTotal_addItem {α : Type} [Zero α] [Add α] (mn : Menu α)
    (o : OrderBase) (slot : Fin 20) (hwf : o.WF) :
    ∃ o' : OrderBase, o.addItem (some slot) = some o' ∧ o'.WF ∧
      o'.calculateBaseTotal mn
        = (o.calculateBaseTotal mn).map fun b => b + (mn slot).price := by
  obtain ⟨o', h, hwf', hl, _, _⟩ := OrderBase.addItem_of_wf o (some slot) hwf
  refine ⟨o', h, hwf', ?_⟩
  rw [OrderBase.calculateBaseTotal_eq_sumPrices mn o' hwf',
    OrderBase.calculateBaseTotal_eq_sumPrices mn o hwf, hl, sumPrices_append_some]

/-! ## Binary32: zero as an operand -/

namespace F32

theorem ilog2_eq_log (fuel : Nat) : ∀ n : Nat, n ≤ fuel → ilog2 fuel n = Nat.log 2 n := by
  induction fuel with
  | zero =>
    intro n hn
    have : n = 0 := by omega
    subst this
    simp [ilog2]
  | succ fuel ih =>
    intro n hn
    by_cases h2 : n < 2
    · simp [ilog2, h2, Nat.log_of_lt h2]
    · have hle : 2 ≤ n := by omega
      simp only [ilog2, if_neg h2]
      rw [ih (n / 2) (by omega), Nat.log_of_one_lt_of_le (by norm_num) hle]

theorem log_mul_two_pow (k j : Nat) (hk : k ≠ 0) : Nat.log 2 (k * 2 ^ j) = Nat.log 2 k + j := by
  induction j with
  | zero => simp
  | succ j ih =>
    rw [pow_succ, ← mul_assoc, Nat.log_mul_base (by norm_num) (by positivity), ih]
    omega

theorem rne_mul (k b : Nat) (hb : 0 < b) : roundNearestEven (k * b) b = k := by
  unfold roundNearestEven
  simp only [Nat.mul_mod_left, Nat.mul_zero]
  rw [if_pos hb, Nat.mul_div_cancel _ hb]

theorem scale_exact (k j : Nat) (f : Int) (hf : f = (j : Int) - 149) :
    (scale (k * 2 ^ j) (1 * 2 ^ 149) f).1 = k * (scale (k * 2 ^ j) (1 * 2 ^ 149) f).2 ∧
    0 < (scale (k * 2 ^ j) (1 * 2 ^ 149) f).2 := by
  unfold scale
  by_cases h0 : 0 ≤ f
  · rw [if_pos h0]
    obtain ⟨i, rfl⟩ : ∃ i : Nat, j = 149 + i := ⟨j - 149, by omega⟩
    have : f.toNat = i := by omega
    rw [this]
    constructor
    · simp only [pow_add]; ring
    · positivity
  · rw [if_neg h0]
    obtain ⟨i, hi⟩ : ∃ i : Nat, 149 = j + i := ⟨149 - j, by omega⟩
    have : (-f).toNat = i := by omega
    rw [this]
    constructor
    · simp only
      rw [show (1 : Nat) * 2 ^ 149 = 2 ^ (j + i) by rw [← hi]; ring, pow_add]
      ring
    · positivity

theorem round_canonical (t : Bool) (k j : Nat) (hk : k ≠ 0) (hk24 : k < 2 ^ 24) (hj : j ≤ 253)
    (hnorm : j = 0 ∨ 2 ^ 23 ≤ k) :
    round t (k * 2 ^ j) (1 * 2 ^ 149) = fin t k ((j : Int) - 149) := by
  have hN : k * 2 ^ j ≠ 0 := by positivity
  have hlogN : ilog2 (k * 2 ^ j) (k * 2 ^ j) = Nat.log 2 k + j := by
    rw [ilog2_eq_log _ _ (le_refl _), log_mul_two_pow k j hk]
  have hlogD : ilog2 (1 * 2 ^ 149) (1 * 2 ^ 149) = 149 := by
    rw [ilog2_eq_log _ _ (le_refl _), one_mul, Nat.log_pow (by norm_num)]
  have hexact := fun f hf => scale_exact k j f hf
  unfold round
  rw [if_neg hN]
  lift_lets
  extract_lets e0 e1 e m
  have he0 : e0 = ((Nat.log 2 k + j : Nat) : Int) - 149 - 23 := by
    simp only [e0, hlogN, hlogD]; rfl
  have he1 : e1 ≤ e0 := by
    simp only [e1]
    split_ifs <;> omega
  have he : e = (j : Int) - 149 := by
    by_cases hkn : 2 ^ 23 ≤ k
    · have hlog : Nat.log 2 k = 23 :=
        Nat.log_eq_of_pow_le_of_lt_pow hkn hk24
      have he0' : e0 = (j : Int) - 149 := by rw [he0, hlog]; push_cast; ring
      obtain ⟨h1, h2⟩ := hexact e0 he0'
      have hcond : 2 ^ 23 * (scale (k * 2 ^ j) (1 * 2 ^ 149) e0).2
          ≤ (scale (k * 2 ^ j) (1 * 2 ^ 149) e0).1 := by
        rw [h1]; exact Nat.mul_le_mul_right _ hkn
      have he1' : e1 = e0 := by simp only [e1]; rw [if_pos hcond]
      simp only [e]
      rw [he1', he0', if_neg (by omega)]
    · have hj0 : j = 0 := by
        rcases hnorm with h | h
        · exact h
        · exact absurd h hkn
      have hlog : Nat.log 2 k < 23 := Nat.log_lt_of_lt_pow hk (by omega)
      have : e1 < -149 := by
        have : e0 < -149 := by rw [he0, hj0]; push_cast; omega
        omega
      simp only [e]
      rw [if_pos this, hj0]
      rfl
  have hm : m = k := by
    obtain ⟨h1, h2⟩ := hexact e he
    simp only [m]
    rw [h1, rne_mul k _ h2]
  rw [hm, he, if_neg (by omega), if_neg (by omega)]

theorem zero_add_canonical (x : F32) (hx : x.Canonical) :
    (0 : F32) + x = x ∨ (x = fin true 0 (-149) ∧ (0 : F32) + x = 0) := by
  cases x with
  | nan => exact Or.inl rfl
  | inf s => exact Or.inl rfl
  | fin t k f =>
    obtain ⟨hk24, hf1, hf2, hnorm⟩ := hx
    show add (fin false 0 (-149)) (fin t k f) = fin t k f ∨
      (fin t k f = fin true 0 (-149) ∧ add (fin false 0 (-149)) (fin t k f) = fin false 0 (-149))
    obtain ⟨j, hj⟩ : ∃ j : Nat, f = (j : Int) - 149 := ⟨(f + 149).toNat, by omega⟩
    have hg : (if (-149 : Int) ≤ f then (-149 : Int) else f) = -149 := if_pos hf1
    have hc : signed false (0 * 2 ^ ((-149 : Int) - (-149)).toNat)
        + signed t (k * 2 ^ (f - (-149)).toNat) = signed t (k * 2 ^ j) := by
      have : (f - (-149)).toNat = j := by omega
      rw [this]
      simp [signed]
    unfold add
    simp only [hg, hc]
    by_cases hk : k = 0
    · subst hk
      have hf : f = -149 := by
        rcases hnorm with h | h
        · exact h
        · norm_num at h
      subst hf
      have h0 : signed t (0 * 2 ^ j) = 0 := by simp [signed]
      rw [if_pos h0]
      cases t with
      | false => exact Or.inl rfl
      | true => exact Or.inr ⟨rfl, rfl⟩
    · left
      have hpos : 0 < k * 2 ^ j := by positivity
      have hne : signed t (k * 2 ^ j) ≠ 0 := by
        cases t with
        | false =>
          show ((k * 2 ^ j : Nat) : Int) ≠ 0
          omega
        | true =>
          show -((k * 2 ^ j : Nat) : Int) ≠ 0
          omega
      have hneg : decide (signed t (k * 2 ^ j) < 0) = t := by
        cases t with
        | false =>
          show decide (((k * 2 ^ j : Nat) : Int) < 0) = false
          exact decide_eq_false (by omega)
        | true =>
          show decide (-((k * 2 ^ j : Nat) : Int) < 0) = true
          exact decide_eq_true (by omega)
      have habs : (signed t (k * 2 ^ j)).natAbs = k * 2 ^ j := by
        cases t with
        | false => exact Int.natAbs_ofNat _
        | true =>
          show (-((k * 2 ^ j : Nat) : Int)).natAbs = k * 2 ^ j
          rw [Int.natAbs_neg]
          exact Int.natAbs_ofNat _
      have hscale : scale (k * 2 ^ j) 1 (-(-149 : Int)) = (k * 2 ^ j, 1 * 2 ^ 149) := by
        unfold scale
        rfl
      rw [if_neg hne, hneg, habs, hscale]
      simp only
      rw [round_canonical t k j hk hk24 (by omega) (by
        rcases hnorm with h | h
        · left; omega
        · right; exact h), hj]

theorem round_zero (neg : Bool) (d : Nat) : round neg 0 d = fin neg 0 (-149) := by
  unfold round
  rw [if_pos rfl]

theorem scale_zero (k d : Nat) (e : Int) : (scale (0 * k) d e).1 = 0 := by
  unfold scale
  split_ifs <;> simp

theorem zero_add_zero_mul (x : F32) (hx : x.isFinite = true) : (0 : F32) + 0 * x = 0 := by
  cases x with
  | nan => simp [isFinite] at hx
  | inf s => simp [isFinite] at hx
  | fin t k f =>
    have hmul : (0 : F32) * fin t k f = fin t 0 (-149) := by
      show mul (fin false 0 (-149)) (fin t k f) = fin t 0 (-149)
      unfold mul
      simp only [scale_zero, round_zero, Bool.false_bne]
    rw [hmul]
    cases t <;> rfl

end F32


/-! ## The claims on the menu lookup -/

/-- C11: for every menu content and every query, `findMenuItem` returns slot `j` exactly when
`j` is the lowest-index slot whose name is non-empty and equal to the query (exact,
case-sensitive comparison), and returns `nullptr` exactly when no slot has a non-empty name
equal to the query; on the static menu, "Burger" is found at slot 0, whose price is 12.99,
and "Unknown Dish" and "burger" are not found. -/
theorem findMenuItem_first_match {α : Type} [Zero α] [OfScientific α] (mn : Menu α)
    (name : String) :
    (∀ j : Fin 20, findMenuItem mn name = some j ↔
      (0 < (mn j).name.length ∧ (mn j).name = name) ∧
        ∀ k : Fin 20, k < j → ¬ (0 < (mn k).name.length ∧ (mn k).name = name)) ∧
    (findMenuItem mn name = none ↔
      ∀ k : Fin 20, ¬ (0 < (mn k).name.length ∧ (mn k).name = name)) ∧
    findMenuItem (menu : Menu α) "Burger" = some 0 ∧
    ((menu : Menu α) 0).name = "Burger" ∧ ((menu : Menu α) 0).price = 12.99 ∧
    findMenuItem (menu : Menu α) "Unknown Dish" = none ∧
    findMenuItem (menu : Menu α) "burger" = none :=
  ⟨findMenuItem_eq_some mn name, findMenuItem_eq_none mn name, rfl, rfl, rfl, rfl, rfl⟩

/-- C16: on the static menu the names of the non-empty slots are pairwise distinct, looking
up the name of a non-empty slot returns exactly that slot, and the non-empty slots are
exactly the 10 slots of index 0 to 9 out of 20. -/
theorem findMenuItem_round_trip {α : Type} [Zero α] [OfScientific α] :
    (∀ i j : Fin 20, 0 < ((menu : Menu α) i).name.length →
      0 < ((menu : Menu α) j).name.length →
      ((menu : Menu α) i).name = ((menu : Menu α) j).name → i = j) ∧
    (∀ i : Fin 20, 0 < ((menu : Menu α) i).name.length →
      findMenuItem (menu : Menu α) ((menu : Menu α) i).name = some i) ∧
    (∀ i : Fin 20, 0 < ((menu : Menu α) i).name.length ↔ i.val < 10) ∧
    ((List.finRange 20).filter fun i => decide (0 < ((menu : Menu α) i).name.length)).length
      = 10 :=
  ⟨of_decide_eq_true rfl, of_decide_eq_true rfl, of_decide_eq_true rfl, rfl⟩

/-- C18: `findMenuItem ""` returns `nullptr` on the static menu, although its slots 10 to 19
hold the empty name; for every menu content the empty query finds nothing and a slot with
an empty name is never the result of a lookup, whatever the query. -/
theorem findMenuItem_empty_query {α : Type} [Zero α] [OfScientific α] :
    findMenuItem (menu : Menu α) "" = none ∧
    (∀ i : Fin 20, 10 ≤ i.val → ((menu : Menu α) i).name = "") ∧
    (∀ mn : Menu α, findMenuItem mn "" = none) ∧
    (∀ (mn : Menu α) (name : String) (j : Fin 20),
      (mn j).name = "" → findMenuItem mn name ≠ some j) := by
  refine ⟨rfl, of_decide_eq_true rfl, ?_, ?_⟩
  · intro mn
    rw [findMenuItem_eq_none]
    rintro k ⟨h1, h2⟩
    rw [h2] at h1
    exact absurd h1 (by decide)
  · intro mn name j hj h
    rw [findMenuItem_eq_some] at h
    have := h.1.1
    rw [hj] at this
    exact absurd this (by decide)

/-! ## The claim on identifiers -/

/-- C12 fails as stated: the counter is a 32-bit `int`, and `2^31` exceeds `INT_MAX`, so the
`2^31`-th order constructed cannot receive the identifier `2^31`; with the wrap-around of
the increment it receives `-2147483648`, and in a run of `2^32 + 1` constructions the first
and the last order both receive the identifier `1`. -/
theorem orderIds_overflow :
    INT_MAX < 2147483648 ∧
    (∃ w : World F32,
      World.init.run (List.replicate 2147483648 (Op.newPickUp (1.50 : F32))) = some w ∧
      (w.created.map Order.getOrderId)[2147483647]? = some (-2147483648)) ∧
    (∃ w : World F32,
      World.init.run (List.replicate 4294967297 (Op.newPickUp (1.50 : F32))) = some w ∧
      (w.created.map Order.getOrderId)[0]? = some 1 ∧
      (w.created.map Order.getOrderId)[4294967296]? = some 1) := by
  refine ⟨by decide, ?_, ?_⟩
  · obtain ⟨w, hr, hi⟩ := World.run_replicate_newPickUp (1.50 : F32) 2147483648
    exact ⟨w, hr, (hi 2147483647 (by decide)).trans (by decide)⟩
  · obtain ⟨w, hr, hi⟩ := World.run_replicate_newPickUp (1.50 : F32) 4294967297
    exact ⟨w, hr, (hi 0 (by decide)).trans (by decide),
      (hi 4294967296 (by decide)).trans (by decide)⟩

/-- C12, amended: every program run from the initial state with at most `INT_MAX = 2^31 - 1`
constructions, whatever its interleaving of constructions, `addOrder` and `removeOrder`
calls, returns; the `k`-th order constructed (of either variant) carries identifier `k`, so
the identifiers issued are `1, 2, ..., N` in order of construction, strictly increasing,
pairwise distinct and at most `N`; the counter ends at `N`; and a step that is not a
construction leaves the counter and the constructed orders unchanged. -/
theorem orderIds_count_up {α : Type} (ops : List (Op α))
    (hN : ((ops.countP Op.isConstruction : Nat) : Int) ≤ INT_MAX) :
    (∃ w : World α, World.init.run ops = some w ∧
      w.created.map Order.getOrderId
        = (List.range (ops.countP Op.isConstruction)).map (fun (k : Nat) => (k : Int) + 1) ∧
      w.nextOrderId = ((ops.countP Op.isConstruction : Nat) : Int) ∧
      (w.created.map Order.getOrderId).Pairwise (· < ·) ∧
      (w.created.map Order.getOrderId).Nodup ∧
      (∀ i ∈ w.created.map Order.getOrderId,
        1 ≤ i ∧ i ≤ ((ops.countP Op.isConstruction : Nat) : Int))) ∧
    (∀ (v v' : World α) (op : Op α), op.isConstruction = false → v.step op = some v' →
      v'.nextOrderId = v.nextOrderId ∧ v'.created = v.created) := by
  constructor
  · obtain ⟨w, hr, _, hn, hc⟩ := World.run_spec ops (World.init : World α)
      OrderManager.wf_new.1 rfl
    have hids : w.created.map Order.getOrderId
        = (List.range (ops.countP Op.isConstruction)).map (fun (k : Nat) => (k : Int) + 1) := by
      rw [hc]
      simp only [World.init, List.map_nil, List.nil_append, nextOrderId]
      apply List.map_congr_left
      intro k hk
      have := List.mem_range.mp hk
      rw [wrapInt_of_inRange _ (by unfold INT_MIN; omega) (by omega)]
      ring
    have hpw : (w.created.map Order.getOrderId).Pairwise (· < ·) := by
      rw [hids, List.pairwise_map]
      exact (List.pairwise_lt_range _).imp (fun h => by omega)
    refine ⟨w, hr, hids, ?_, hpw, hpw.imp (fun h => ne_of_lt h), ?_⟩
    · rw [hn]
      show wrapInt (0 + _) = _
      rw [wrapInt_of_inRange _ (by unfold INT_MIN; omega) (by omega)]
      ring
    · intro i hi
      rw [hids] at hi
      obtain ⟨k, hk, rfl⟩ := List.mem_map.mp hi
      have := List.mem_range.mp hk
      omega
  · intro v v' op hop h
    cases op with
    | newDineIn r => simp [Op.isConstruction] at hop
    | newPickUp f => simp [Op.isConstruction] at hop
    | addOrder k =>
      simp only [World.step] at h
      cases hk : v.created[k]? with
      | none =>
        rw [hk] at h
        obtain rfl : v = v' := by simpa using h
        exact ⟨rfl, rfl⟩
      | some o =>
        rw [hk] at h
        obtain ⟨m, _, rfl⟩ := Option.map_eq_some'.mp h
        exact ⟨rfl, rfl⟩
    | removeOrder orderId =>
      simp only [World.step] at h
      obtain ⟨m, _, rfl⟩ := Option.map_eq_some'.mp h
      exact ⟨rfl, rfl⟩

theorem orderIds_count_up_witness :
    ((([Op.newDineIn 0.18, Op.newPickUp 2.00, Op.addOrder 0, Op.addOrder 1, Op.removeOrder 1,
        Op.newDineIn 0.20, Op.addOrder 2, Op.removeOrder 1] : List (Op F32)).countP
        Op.isConstruction : Nat) : Int) ≤ INT_MAX ∧
    ((∃ w : World F32,
      World.init.run [Op.newDineIn 0.18, Op.newPickUp 2.00, Op.addOrder 0, Op.addOrder 1,
        Op.removeOrder 1, Op.newDineIn 0.20, Op.addOrder 2, Op.removeOrder 1] = some w ∧
      w.created.map Order.getOrderId
        = (List.range (([Op.newDineIn 0.18, Op.newPickUp 2.00, Op.addOrder 0, Op.addOrder 1,
            Op.removeOrder 1, Op.newDineIn 0.20, Op.addOrder 2,
            Op.removeOrder 1] : List (Op F32)).countP Op.isConstruction)).map
            (fun (k : Nat) => (k : Int) + 1) ∧
      w.nextOrderId = ((([Op.newDineIn 0.18, Op.newPickUp 2.00, Op.addOrder 0, Op.addOrder 1,
            Op.removeOrder 1, Op.newDineIn 0.20, Op.addOrder 2,
            Op.removeOrder 1] : List (Op F32)).countP Op.isConstruction : Nat) : Int) ∧
      (w.created.map Order.getOrderId).Pairwise (· < ·) ∧
      (w.created.map Order.getOrderId).Nodup ∧
      (∀ i ∈ w.created.map Order.getOrderId,
        1 ≤ i ∧ i ≤ ((([Op.newDineIn 0.18, Op.newPickUp 2.00, Op.addOrder 0, Op.addOrder 1,
            Op.removeOrder 1, Op.newDineIn 0.20, Op.addOrder 2,
            Op.removeOrder 1] : List (Op F32)).countP Op.isConstruction : Nat) : Int))) ∧
    (∀ (v v' : World F32) (op : Op F32), op.isConstruction = false → v.step op = some v' →
      v'.nextOrderId = v.nextOrderId ∧ v'.created = v.created)) :=
  ⟨by decide, orderIds_count_up _ (by decide)⟩

/-! ## The claim on negative surcharges -/

/-- C13 fails as stated: `setServiceCharge` with a negative rate is not rejected, it
replaces the stored rate; `setPackagingFee` with a negative fee replaces the stored fee; and
the constructors store a negative parameter as given.  Shown in exact arithmetic and in
binary32 arithmetic. -/
theorem negative_surcharge_is_stored :
    ((-0.5 : ℚ) < 0 ∧
      (DineInOrder.setServiceCharge (DineInOrder.newDefault 0).1 (-0.5 : ℚ)).getServiceCharge
        = -0.5 ∧
      (DineInOrder.setServiceCharge (DineInOrder.newDefault 0).1 (-0.5 : ℚ)).getServiceCharge
        ≠ (DineInOrder.newDefault 0 : DineInOrder ℚ × Int).1.getServiceCharge ∧
      (PickUpOrder.setPackagingFee (PickUpOrder.newDefault 0).1 (-0.5 : ℚ)).getPackagingFee
        ≠ (PickUpOrder.newDefault 0 : PickUpOrder ℚ × Int).1.getPackagingFee ∧
      (DineInOrder.new 0 (-0.5 : ℚ)).1.getServiceCharge = -0.5 ∧
      (PickUpOrder.new 0 (-0.5 : ℚ)).1.getPackagingFee = -0.5) ∧
    (F32.isNegative (-0.5 : F32) = true ∧
      (DineInOrder.setServiceCharge (DineInOrder.newDefault 0).1 (-0.5 : F32)).getServiceCharge
        = -0.5 ∧
      (DineInOrder.setServiceCharge (DineInOrder.newDefault 0).1 (-0.5 : F32)).getServiceCharge
        ≠ (DineInOrder.newDefault 0 : DineInOrder F32 × Int).1.getServiceCharge ∧
      (PickUpOrder.setPackagingFee (PickUpOrder.newDefault 0).1 (-0.5 : F32)).getPackagingFee
        ≠ (PickUpOrder.newDefault 0 : PickUpOrder F32 × Int).1.getPackagingFee ∧
      (DineInOrder.new 0 (-0.5 : F32)).1.getServiceCharge = -0.5 ∧
      (PickUpOrder.new 0 (-0.5 : F32)).1.getPackagingFee = -0.5) := by
  refine ⟨⟨by norm_num, rfl, ?_, ?_, rfl, rfl⟩, ⟨by decide, rfl, by decide, by decide, rfl, rfl⟩⟩
  · show (-0.5 : ℚ) ≠ 0.15
    norm_num
  · show (-0.5 : ℚ) ≠ 1.50
    norm_num

/-- C13, amended: the setters and the constructors perform no validation.  For every rate,
negative or not, `setServiceCharge` stores it and leaves the rest of the order unchanged;
for every fee `setPackagingFee` does the same; and a constructed order holds exactly the
parameter it was given. -/
theorem surcharge_is_stored_unchecked {α : Type} :
    (∀ (o : DineInOrder α) (rate : α),
      (o.setServiceCharge rate).getServiceCharge = rate ∧
      (o.setServiceCharge rate).toOrderBase = o.toOrderBase) ∧
    (∀ (o : PickUpOrder α) (fee : α),
      (o.setPackagingFee fee).getPackagingFee = fee ∧
      (o.setPackagingFee fee).toOrderBase = o.toOrderBase) ∧
    (∀ (c : Int) (rate : α), (DineInOrder.new c rate).1.getServiceCharge = rate) ∧
    (∀ (c : Int) (fee : α), (PickUpOrder.new c fee).1.getPackagingFee = fee) :=
  ⟨fun _ _ => ⟨rfl, rfl⟩, fun _ _ => ⟨rfl, rfl⟩, fun _ _ => rfl, fun _ _ => rfl⟩

/-! ## The claims on the item list -/

/-- C17: the order obtained from a new order by `addItem r1 .. addItem rk` stores exactly
`[r1, ..., rk]`, absent references included (`addItem` does not check); on it
`calculateBaseTotal`, and `getTotal` of either variant, is defined exactly when every stored
reference is present, so it never dereferences an absent reference when all arguments were
present.  Every name looked up by `demonstrateSystem` is found in the static menu, and the
run of `demonstrateSystem` is defined. -/
theorem baseTotal_defined_iff_present {α : Type} [Zero α] [Add α] [Mul α] [OfScientific α] :
    (∀ (mn : Menu α) (c : Int) (rs : List MenuItemPtr),
      ∃ o : OrderBase, (OrderBase.new c).1.addItems rs = some o ∧ o.itemList = rs ∧
        ((o.calculateBaseTotal mn).isSome = true ↔ ∀ r ∈ rs, r.isSome = true) ∧
        (∀ rate : α, (DineInOrder.getTotal mn ⟨o, rate⟩).isSome = true ↔
          ∀ r ∈ rs, r.isSome = true) ∧
        (∀ fee : α, (PickUpOrder.getTotal mn ⟨o, fee⟩).isSome = true ↔
          ∀ r ∈ rs, r.isSome = true)) ∧
    (findMenuItem (menu : Menu α) "Burger" = some 0 ∧
      findMenuItem (menu : Menu α) "Pizza" = some 1 ∧
      findMenuItem (menu : Menu α) "Steak" = some 4 ∧
      findMenuItem (menu : Menu α) "Pasta" = some 2 ∧
      findMenuItem (menu : Menu α) "Salad" = some 3 ∧
      findMenuItem (menu : Menu α) "Chicken Wings" = some 5 ∧
      findMenuItem (menu : Menu α) "Tacos" = some 7 ∧
      findMenuItem (menu : Menu α) "Soup" = some 8) ∧
    (demonstrateSystem (menu : Menu α) nextOrderId).isSome = true := by
  refine ⟨?_, ⟨rfl, rfl, rfl, rfl, rfl, rfl, rfl, rfl⟩, rfl⟩
  intro mn c rs
  obtain ⟨o, h, hwf, hl, _, _⟩ := OrderBase.addItems_of_wf rs (OrderBase.new c).1
    (OrderBase.wf_newOrder c).1
  rw [(OrderBase.wf_newOrder c).2, List.nil_append] at hl
  have hbase : (o.calculateBaseTotal mn).isSome = true ↔ ∀ r ∈ rs, r.isSome = true := by
    rw [OrderBase.calculateBaseTotal_eq_sumPrices mn o hwf, hl]
    exact sumPrices_isSome mn rs 0
  refine ⟨o, h, hl, hbase, ?_, ?_⟩
  · intro rate
    rw [← hbase]
    simp [DineInOrder.getTotal]
  · intro fee
    rw [← hbase]
    simp [PickUpOrder.getTotal]

/-! ## The claim on capacities -/

/-- C20: in exact arithmetic, on an order with a well-formed item array and a defined total
`t`, adding the item of slot `slot` (price `p`) gives total `t + p` for a pickup order and
`t + p * (1 + serviceCharge)` for a dine-in order; hence with `0 ≤ p` (and `0 ≤ serviceCharge`
for dine-in) the total does not decrease; and two orders of the same variant and surcharge
whose item sequences are permutations of each other have the same total. -/
theorem addItem_total_increment (mn : Menu ℚ) :
    (∀ (o : PickUpOrder ℚ) (slot : Fin 20) (t : ℚ), o.toOrderBase.WF → o.getTotal mn = some t →
      ∃ o' : PickUpOrder ℚ, o.addItem (some slot) = some o' ∧
        o'.getTotal mn = some (t + (mn slot).price) ∧
        (0 ≤ (mn slot).price → t ≤ t + (mn slot).price)) ∧
    (∀ (o : DineInOrder ℚ) (slot : Fin 20) (t : ℚ), o.toOrderBase.WF → o.getTotal mn = some t →
      ∃ o' : DineInOrder ℚ, o.addItem (some slot) = some o' ∧
        o'.getTotal mn = some (t + (mn slot).price * (1 + o.getServiceCharge)) ∧
        (0 ≤ (mn slot).price → 0 ≤ o.getServiceCharge →
          t ≤ t + (mn slot).price * (1 + o.getServiceCharge))) ∧
    (∀ o1 o2 : PickUpOrder ℚ, o1.toOrderBase.WF → o2.toOrderBase.WF →
      o1.toOrderBase.itemList.Perm o2.toOrderBase.itemList →
      o1.getPackagingFee = o2.getPackagingFee → o1.getTotal mn = o2.getTotal mn) ∧
    (∀ o1 o2 : DineInOrder ℚ, o1.toOrderBase.WF → o2.toOrderBase.WF →
      o1.toOrderBase.itemList.Perm o2.toOrderBase.itemList →
      o1.getServiceCharge = o2.getServiceCharge → o1.getTotal mn = o2.getTotal mn) := by
  refine ⟨?_, ?_, ?_, ?_⟩
  · intro o slot t hwf ht
    obtain ⟨b', h, _, hb⟩ := OrderBase.calculateBaseTotal_addItem mn o.toOrderBase slot hwf
    unfold PickUpOrder.getTotal at ht
    obtain ⟨b, hbase, rfl⟩ := Option.map_eq_some'.mp ht
    refine ⟨{ o with toOrderBase := b' }, by simp [PickUpOrder.addItem, h], ?_, ?_⟩
    · unfold PickUpOrder.getTotal
      rw [hb, hbase]
      simp only [Option.map_some', Option.some.injEq]
      ring
    · intro hp
      linarith
  · intro o slot t hwf ht
    obtain ⟨b', h, _, hb⟩ := OrderBase.calculateBaseTotal_addItem mn o.toOrderBase slot hwf
    unfold DineInOrder.getTotal at ht
    obtain ⟨b, hbase, rfl⟩ := Option.map_eq_some'.mp ht
    refine ⟨{ o with toOrderBase := b' }, by simp [DineInOrder.addItem, h], ?_, ?_⟩
    · unfold DineInOrder.getTotal
      rw [hb, hbase]
      simp only [Option.map_some', Option.some.injEq, DineInOrder.getServiceCharge]
      ring
    · intro hp hr
      have : 0 ≤ (mn slot).price * (1 + o.getServiceCharge) :=
        mul_nonneg hp (by linarith)
      linarith
  · intro o1 o2 hwf1 hwf2 hperm hfee
    unfold PickUpOrder.getTotal
    rw [OrderBase.calculateBaseTotal_eq_sumPrices mn _ hwf1,
      OrderBase.calculateBaseTotal_eq_sumPrices mn _ hwf2, sumPrices_perm mn hperm 0]
    unfold PickUpOrder.getPackagingFee at hfee
    rw [hfee]
  · intro o1 o2 hwf1 hwf2 hperm hrate
    unfold DineInOrder.getTotal
    rw [OrderBase.calculateBaseTotal_eq_sumPrices mn _ hwf1,
      OrderBase.calculateBaseTotal_eq_sumPrices mn _ hwf2, sumPrices_perm mn hperm 0]
    unfold DineInOrder.getServiceCharge at hrate
    rw [hrate]

theorem addItem_total_increment_witness :
    samplePickUp.toOrderBase.WF ∧
    samplePickUp.getTotal menu
      = some (0 + ((menu : Menu ℚ) 0).price + ((menu : Menu ℚ) 0).price + 2.00) ∧
    ∃ o' : PickUpOrder ℚ, samplePickUp.addItem (some 4) = some o' ∧
      o'.getTotal menu
        = some (0 + ((menu : Menu ℚ) 0).price + ((menu : Menu ℚ) 0).price + 2.00
            + ((menu : Menu ℚ) 4).price) ∧
      (0 ≤ ((menu : Menu ℚ) 4).price →
        0 + ((menu : Menu ℚ) 0).price + ((menu : Menu ℚ) 0).price + 2.00
          ≤ 0 + ((menu : Menu ℚ) 0).price + ((menu : Menu ℚ) 0).price + 2.00
            + ((menu : Menu ℚ) 4).price) :=
  ⟨by decide, rfl, (addItem_total_increment menu).1 samplePickUp 4 _ (by decide) rfl⟩

/-! ## The claim on new orders -/

/-- C15 fails as stated in the binary32 arithmetic of the code: a new dine-in order whose
service rate is `+infinity` has total NaN, not 0 (its base total is 0 and `0 * infinity` is
NaN). -/
theorem new_dineIn_total_infinite_rate :
    (DineInOrder.new nextOrderId (F32.inf false)).1.getTotal (menu : Menu F32) = some F32.nan ∧
    F32.nan ≠ (0 : F32) := by
  constructor
  · rfl
  · decide

/-- C15, amended: a new order of either variant has no items (`getItemCount = 0`) and holds
the parameter it was given, `0.15` and `1.50` by default; its total is `0 + 0 * serviceCharge`
for dine-in and `0 + packagingFee` for pickup.  In exact arithmetic these are `0` and the
fee.  In binary32 arithmetic the dine-in total is `0` for every finite rate, and the pickup
total is the fee for every binary32 value of the fee in canonical representation (for the
fee `-0` it is `+0`). -/
theorem new_order_state_and_total (α : Type) [Zero α] [Add α] [Mul α] [OfScientific α] :
    (∀ (mn : Menu α) (c : Int) (rate : α),
      (DineInOrder.new c rate).1.getItemCount = 0 ∧
      (DineInOrder.new c rate).1.itemList = [] ∧
      (DineInOrder.new c rate).1.getServiceCharge = rate ∧
      (DineInOrder.new c rate).1.getTotal mn = some (0 + 0 * rate)) ∧
    (∀ (mn : Menu α) (c : Int) (fee : α),
      (PickUpOrder.new c fee).1.getItemCount = 0 ∧
      (PickUpOrder.new c fee).1.itemList = [] ∧
      (PickUpOrder.new c fee).1.getPackagingFee = fee ∧
      (PickUpOrder.new c fee).1.getTotal mn = some (0 + fee)) ∧
    (∀ c : Int, (DineInOrder.newDefault c : DineInOrder α × Int).1.getServiceCharge = 0.15 ∧
      (PickUpOrder.newDefault c : PickUpOrder α × Int).1.getPackagingFee = 1.50) ∧
    (∀ (mn : Menu ℚ) (c : Int) (rate fee : ℚ),
      (DineInOrder.new c rate).1.getTotal mn = some 0 ∧
      (PickUpOrder.new c fee).1.getTotal mn = some fee) ∧
    (∀ (mn : Menu F32) (c : Int) (rate : F32), rate.isFinite = true →
      (DineInOrder.new c rate).1.getTotal mn = some 0) ∧
    (∀ (mn : Menu F32) (c : Int) (fee : F32), fee.Canonical →
      (PickUpOrder.new c fee).1.getTotal mn = some fee ∨
      (fee = F32.fin true 0 (-149) ∧ (PickUpOrder.new c fee).1.getTotal mn = some 0)) := by
  refine ⟨fun _ _ _ => ⟨rfl, rfl, rfl, rfl⟩, fun _ _ _ => ⟨rfl, rfl, rfl, rfl⟩,
    fun _ => ⟨rfl, rfl⟩, ?_, ?_, ?_⟩
  · intro mn c rate fee
    constructor
    · show some ((0 : ℚ) + 0 * rate) = some 0
      rw [zero_mul, add_zero]
    · show some ((0 : ℚ) + fee) = some fee
      rw [zero_add]
  · intro mn c rate hfin
    show some ((0 : F32) + 0 * rate) = some 0
    rw [F32.zero_add_zero_mul rate hfin]
  · intro mn c fee hcan
    rcases F32.zero_add_canonical fee hcan with h | ⟨h1, h2⟩
    · left
      show some ((0 : F32) + fee) = some fee
      rw [h]
    · right
      refine ⟨h1, ?_⟩
      show some ((0 : F32) + fee) = some 0
      rw [h2]

set_option maxRecDepth 8000 in
theorem new_order_state_and_total_witness :
    (F32.isFinite (0.15 : F32) = true ∧
      (DineInOrder.new 0 (0.15 : F32)).1.getTotal (menu : Menu F32) = some 0) ∧
    (F32.Canonical (1.50 : F32) ∧
      ((PickUpOrder.new 0 (1.50 : F32)).1.getTotal (menu : Menu F32) = some 1.50 ∨
        ((1.50 : F32) = F32.fin true 0 (-149) ∧
          (PickUpOrder.new 0 (1.50 : F32)).1.getTotal (menu : Menu F32) = some 0))) :=
  ⟨⟨by decide, (new_order_state_and_total F32).2.2.2.2.1 menu 0 0.15 (by decide)⟩,
    ⟨by decide, (new_order_state_and_total F32).2.2.2.2.2 menu 0 1.50 (by decide)⟩⟩


end Restaurant
